import Mathlib

/-!
Verification development for the Jumpware search-and-ranking engine
(`src/unnamed/part_000`): the word-based fuzzy subsequence matcher
(`fuzzyScore`), the multi-field weighted scorer
(`calculateWeightedTextScore`), the resource-identity normalizer
(`normalizeUrlForDedup`), the co-occurrence affinity graph
(`recordCoOccurrence` / `calculateClusterBoost`) and the omnibox ranking
pipeline.

Modelling conventions:
* JavaScript strings are modelled as `List Char` (`JStr`); `String.data`
  converts a Lean string literal.
* JavaScript numbers are modelled by exact rationals `ℚ`.  The two
  sentinel return values of `fuzzyScore` (`-9999` for an empty query and
  `-Infinity` for "no match") are modelled by the constructors
  `FScore.noQuery` and `FScore.negInf`; where the code later uses the
  `-9999` sentinel as an ordinary number it is mapped back to the
  rational `-9999` (`FScore.toNum`).  A combined pipeline score
  (`textScore + clusterBoost`) is a `JSNum`: either `-Infinity` or a
  finite rational.
* `toLowerCase` is modelled on the basic-latin range (`Char.toLower`),
  and the `\s` of `split(/\s+/)` / `trim()` as space, tab, CR, LF.
-/

/-- JavaScript string, modelled as a list of characters. -/
abbrev JStr := List Char

/-- Convert a Lean string literal to the model type. -/
def S (s : String) : JStr := s.data

/-- Whitespace test used to model `trim()` and `split(/\s+/)`. -/
def isWsChar (c : Char) : Bool :=
  c == ' ' || c == '\t' || c == '\n' || c == '\r'

/-- `String.prototype.toLowerCase` (basic-latin range). -/
def jsToLower (s : JStr) : JStr := s.map Char.toLower

/-- Drop trailing characters satisfying `p`. -/
def dropWhileEnd (p : Char → Bool) : JStr → JStr
  | [] => []
  | c :: rest =>
    let r := dropWhileEnd p rest
    if r = [] && p c then [] else c :: r

/-- `String.prototype.trim`. -/
def jsTrim (s : JStr) : JStr := dropWhileEnd isWsChar (s.dropWhile isWsChar)

/-- Accumulator-based splitting on whitespace; models
`split(/\s+/).filter(w => w.length > 0)` (empty pieces removed). -/
def splitWsAux : JStr → JStr → List JStr
  | [], acc => if acc = [] then [] else [acc.reverse]
  | c :: rest, acc =>
    if isWsChar c then
      if acc = [] then splitWsAux rest [] else acc.reverse :: splitWsAux rest []
    else splitWsAux rest (c :: acc)

/-- `q.split(/\s+/).filter(w => w.length > 0)`. -/
def splitWs (s : JStr) : List JStr := splitWsAux s []

/-- The inner scan of `fuzzyScore` (part_000 lines 25-37): greedy
subsequence scan of `word` through the target suffix, counting skipped
target characters as jumps; `none` when the target is exhausted before
the word is consumed (and an empty word never matches, mirroring the
`wi < word.length` loop guard). -/
def scanFromStart : JStr → JStr → Nat → Option Nat
  | [], _, _ => none
  | _ :: _, [], _ => none
  | wc :: wrest, tc :: trest, j =>
    if tc == wc then
      match wrest with
      | [] => some j
      | _ :: _ => scanFromStart wrest trest j
    else scanFromStart (wc :: wrest) trest (j + 1)

/-- Minimum of two optional jump counts (`none` plays `Infinity`). -/
def optMin : Option Nat → Option Nat → Option Nat
  | none, b => b
  | some x, none => some x
  | some x, some y => some (min x y)

/-- `bestWordJumps` of part_000 lines 18-38: minimum jump count over all
start positions in the target; `none` iff the word matched from no start
position (`wordMatched === false`). -/
def bestWordJumps (w : JStr) : JStr → Option Nat
  | [] => none
  | tc :: trest => optMin (scanFromStart w (tc :: trest) 0) (bestWordJumps w trest)

/-- `jumpThreshold` of part_000 line 51:
`word.length <= 3 ? word.length * 1.0 : word.length * 1.5`. -/
def jumpThreshold (len : Nat) : ℚ :=
  if len ≤ 3 then (len : ℚ) * 1.0 else (len : ℚ) * 1.5

/-- The rejection test `bestWordJumps > jumpThreshold` (line 52). -/
def jumpThresholdExceeded (len jumps : Nat) : Bool :=
  decide (jumpThreshold len < (jumps : ℚ))

/-- Result type of `fuzzyScore`: the `-9999` empty-query sentinel, the
`-Infinity` no-match sentinel, and finite scores. -/
inductive FScore where
  | noQuery : FScore
  | negInf : FScore
  | val : ℚ → FScore
deriving DecidableEq

/-- The per-word loop of `fuzzyScore` (lines 16-58): fails (`-Infinity`)
as soon as a word does not match or exceeds its jump budget, otherwise
accumulates `totalJumps`. -/
def matchWordsLoop : List JStr → JStr → Option Nat
  | [], _ => some 0
  | w :: ws, t =>
    match bestWordJumps w t with
    | none => none
    | some j =>
      if jumpThresholdExceeded w.length j then none
      else (matchWordsLoop ws t).map (fun r => j + r)

/-- `fuzzyScore` (part_000 lines 5-74): word-based fuzzy subsequence
matcher.  Debug `console.log` calls are pure logging and not modelled. -/
def fuzzyScore (qRaw tRaw : JStr) : FScore :=
  let q := jsTrim (jsToLower qRaw)
  let t := jsToLower tRaw
  if q = [] then .noQuery
  else
    let words := splitWs q
    if words = [] then .noQuery
    else
      match matchWordsLoop words t with
      | none => .negInf
      | some totalJumps =>
        let matchedChars := (words.map List.length).sum
        let extraCharPenalty : ℚ := (q.length : ℚ) - (matchedChars : ℚ)
        .val (-(totalJumps : ℚ) - (t.length : ℚ) * 0.001 - extraCharPenalty * 0.1)

/-- An indexed item (title, url, kind/category, extracted body text and
heading text); `item.title || ''` etc. are modelled as plain fields with
`[]` for missing. -/
structure Item where
  title : JStr
  url : JStr
  kind : JStr
  content : JStr
  headings : JStr
deriving DecidableEq

/-- The sentinel-guarded extraction used at part_000 lines 123-127:
`(s === -Infinity || s === -9999) ? 0 : s`. -/
def safeScore : FScore → ℚ
  | .val x => x
  | _ => 0

/-- The check of line 114: `score !== -Infinity && score !== -9999`. -/
def isValidScore : FScore → Bool
  | .val _ => true
  | _ => false

/-- `calculateWeightedTextScore` (part_000 lines 88-137): weights
title 1.5, content 1.0, headings 0.8, url 0.5, kind 0.3; body fields are
scored only for queries of length ≥ 3. -/
def calculateWeightedTextScore (query : JStr) (item : Item) : FScore :=
  let q := jsTrim (jsToLower query)
  if q = [] then .noQuery
  else
    let titleScore := fuzzyScore q (jsToLower item.title)
    let urlScore := fuzzyScore q (jsToLower item.url)
    let kindScore := fuzzyScore q (jsToLower item.kind)
    let contentScore := if 3 ≤ q.length then fuzzyScore q (jsToLower item.content) else .noQuery
    let headingsScore := if 3 ≤ q.length then fuzzyScore q (jsToLower item.headings) else .noQuery
    let allScores := [titleScore, urlScore, kindScore] ++
      (if 3 ≤ q.length then [contentScore, headingsScore] else [])
    if allScores.any isValidScore then
      .val (safeScore titleScore * 1.5 + safeScore contentScore * 1.0 +
            safeScore headingsScore * 0.8 + safeScore urlScore * 0.5 +
            safeScore kindScore * 0.3)
    else .negInf

/-- Spec §4.1/§4.2 reference: a word matches a field iff it occurs as a
subsequence under some start offset with minimum jumps within budget. -/
def specWordOk (w t : JStr) : Bool :=
  match bestWordJumps w t with
  | none => false
  | some j => !jumpThresholdExceeded w.length j

/-- Spec §4.2 reference: `totalJumps` sums each word's minimum jump count. -/
def specTotalJumps (ws : List JStr) (t : JStr) : Nat :=
  (ws.map (fun w => (bestWordJumps w t).getD 0)).sum

/-- Reference definition transcribed from spec §4.2 for claim C2: a field
matches iff every query word matches within the jump budget, and then
scores `-totalJumps - fieldLength * 0.001 - extraCharPenalty * 0.1`. -/
def specFieldScore (words : List JStr) (qLen : Nat) (field : JStr) : Option ℚ :=
  let t := jsToLower field
  if words.all (fun w => specWordOk w t) then
    some (-(specTotalJumps words t : ℚ) - (t.length : ℚ) * 0.001 -
          ((qLen : ℚ) - ((words.map List.length).sum : ℚ)) * 0.1)
  else none

/-- Reference definition transcribed from spec §4.2 for claim C2: the
query is split into whitespace-delimited lowercase words; title, url and
category are always scored, body and heading text only for query length
≥ 3; the item is "no match" exactly when every evaluated field fails;
otherwise the weighted sum title×1.5 + body×1.0 + heading×0.8 + url×0.5 +
category×0.3 with non-matching/non-evaluated fields contributing 0. -/
def specWeightedTextScore (query : JStr) (item : Item) : FScore :=
  let q := jsTrim (jsToLower query)
  if q = [] then .noQuery
  else
    let words := splitWs q
    let fTitle := specFieldScore words q.length item.title
    let fUrl := specFieldScore words q.length item.url
    let fKind := specFieldScore words q.length item.kind
    let fContent := if 3 ≤ q.length then specFieldScore words q.length item.content else none
    let fHeadings := if 3 ≤ q.length then specFieldScore words q.length item.headings else none
    if fTitle = none ∧ fUrl = none ∧ fKind = none ∧ fContent = none ∧ fHeadings = none then
      .negInf
    else
      .val (fTitle.getD 0 * 1.5 + fContent.getD 0 * 1.0 + fHeadings.getD 0 * 0.8 +
            fUrl.getD 0 * 0.5 + fKind.getD 0 * 0.3)

/-- Embed an optional field score into `FScore` (helper for the C2 proof). -/
def optToFScore : Option ℚ → FScore
  | none => .negInf
  | some v => .val v

set_option maxRecDepth 8000

example : bestWordJumps (S "ian") (jsToLower (S "ixxaxxxn")) = some 5 := by decide
example : fuzzyScore (S "ian") (S "ixxaxxxn") = FScore.negInf := by with_unfolding_all decide
example : fuzzyScore (S "abc") (S "abc") = FScore.val (-(3 : ℚ) * 0.001) := by
  with_unfolding_all decide
example : fuzzyScore (S "  ") (S "abc") = FScore.noQuery := by with_unfolding_all decide
example : fuzzyScore (S "xyz") (S "abc") = FScore.negInf := by with_unfolding_all decide

example :
    calculateWeightedTextScore (S "abc")
      ⟨S "abc", S "zzz", S "", S "", S ""⟩ =
    FScore.val ((-(3 : ℚ) * 0.001) * 1.5) := by with_unfolding_all decide
example :
    specWeightedTextScore (S "abc")
      ⟨S "abc", S "zzz", S "", S "", S ""⟩ =
    calculateWeightedTextScore (S "abc") ⟨S "abc", S "zzz", S "", S "", S ""⟩ := by
  with_unfolding_all decide

/-! ### Character and preprocessing lemmas -/

theorem toNat_ofNat_of_lt {n : Nat} (h : n < 55296) : (Char.ofNat n).toNat = n := by
  have hv : n.isValidChar := Or.inl h
  simp [Char.ofNat, hv, Char.ofNatAux, Char.toNat, UInt32.toNat]

theorem toNat_toLower (c : Char) :
    (Char.toLower c).toNat =
      if c.toNat ≥ 65 ∧ c.toNat ≤ 90 then c.toNat + 32 else c.toNat := by
  show (if c.toNat ≥ 65 ∧ c.toNat ≤ 90 then Char.ofNat (c.toNat + 32) else c).toNat = _
  split
  · next h => exact toNat_ofNat_of_lt (by omega)
  · rfl

theorem toLower_eq_of_cond {c : Char} (h : c.toNat ≥ 65 ∧ c.toNat ≤ 90) :
    Char.toLower c = Char.ofNat (c.toNat + 32) := by
  show (if c.toNat ≥ 65 ∧ c.toNat ≤ 90 then Char.ofNat (c.toNat + 32) else c) = _
  exact if_pos h

theorem toLower_eq_self_of_not_cond {c : Char} (h : ¬(c.toNat ≥ 65 ∧ c.toNat ≤ 90)) :
    Char.toLower c = c := by
  show (if c.toNat ≥ 65 ∧ c.toNat ≤ 90 then Char.ofNat (c.toNat + 32) else c) = _
  exact if_neg h

theorem toLower_toLower (c : Char) : Char.toLower (Char.toLower c) = Char.toLower c := by
  by_cases h : c.toNat ≥ 65 ∧ c.toNat ≤ 90
  · apply toLower_eq_self_of_not_cond
    rw [toNat_toLower, if_pos h]
    omega
  · rw [toLower_eq_self_of_not_cond h, toLower_eq_self_of_not_cond h]

theorem ne_of_toNat_ne {c d : Char} (h : c.toNat ≠ d.toNat) : c ≠ d :=
  fun he => h (he ▸ rfl)

theorem isWsChar_eq_false_of_toNat (c : Char)
    (h : c.toNat ≠ 32 ∧ c.toNat ≠ 9 ∧ c.toNat ≠ 10 ∧ c.toNat ≠ 13) :
    isWsChar c = false := by
  simp only [isWsChar, Bool.or_eq_false_iff, beq_eq_false_iff_ne, ne_eq]
  refine ⟨⟨⟨?_, ?_⟩, ?_⟩, ?_⟩ <;> · intro he; subst he; simp at h

theorem isWsChar_toLower (c : Char) : isWsChar (Char.toLower c) = isWsChar c := by
  by_cases h : c.toNat ≥ 65 ∧ c.toNat ≤ 90
  · rw [isWsChar_eq_false_of_toNat c (by omega)]
    apply isWsChar_eq_false_of_toNat
    rw [toNat_toLower, if_pos h]
    omega
  · rw [toLower_eq_self_of_not_cond h]

theorem jsToLower_idem (s : JStr) : jsToLower (jsToLower s) = jsToLower s := by
  simp [jsToLower, List.map_map, Function.comp_def, toLower_toLower]

theorem dropWhile_jsToLower (s : JStr) :
    (jsToLower s).dropWhile isWsChar = jsToLower (s.dropWhile isWsChar) := by
  induction s with
  | nil => rfl
  | cons c t ih =>
    simp only [jsToLower, List.map_cons, List.dropWhile_cons, isWsChar_toLower]
    by_cases h : isWsChar c = true
    · simpa [h] using ih
    · simp at h; simp [h, jsToLower]

theorem dropWhileEnd_jsToLower (s : JStr) :
    dropWhileEnd isWsChar (jsToLower s) = jsToLower (dropWhileEnd isWsChar s) := by
  induction s with
  | nil => rfl
  | cons c t ih =>
    simp only [jsToLower, List.map_cons] at ih ⊢
    simp only [dropWhileEnd, ih, isWsChar_toLower]
    by_cases h : dropWhileEnd isWsChar t = []
    · by_cases hc : isWsChar c = true <;> simp [h, hc]
    · simp [h, List.map_eq_nil_iff]

theorem jsTrim_jsToLower (s : JStr) :
    jsTrim (jsToLower s) = jsToLower (jsTrim s) := by
  rw [jsTrim, dropWhile_jsToLower, dropWhileEnd_jsToLower, jsTrim]

theorem dropWhile_head_false {p : Char → Bool} {s : JStr} {c : Char} {t : JStr}
    (h : s.dropWhile p = c :: t) : p c = false := by
  induction s with
  | nil => simp at h
  | cons a s ih =>
    rw [List.dropWhile_cons] at h
    by_cases ha : p a = true
    · exact ih (by simpa [ha] using h)
    · simp [ha] at h
      obtain ⟨h1, h2⟩ := h
      subst h1
      simpa using ha

theorem head_dropWhileEnd {p : Char → Bool} {s : JStr} {c : Char} {r : JStr}
    (h : dropWhileEnd p s = c :: r) : ∃ t, s = c :: t := by
  cases s with
  | nil => simp [dropWhileEnd] at h
  | cons a t =>
    simp only [dropWhileEnd] at h
    by_cases hc : (decide (dropWhileEnd p t = []) && p a) = true
    · simp [hc] at h
    · simp only [hc, if_false] at h
      refine ⟨t, ?_⟩
      have := (List.cons.injEq a (dropWhileEnd p t) c r).mp (by simpa using h)
      rw [this.1]

theorem dropWhile_idem (p : Char → Bool) (s : JStr) :
    (s.dropWhile p).dropWhile p = s.dropWhile p := by
  cases h : s.dropWhile p with
  | nil => rfl
  | cons c t => rw [List.dropWhile_cons, dropWhile_head_false h]; simp

theorem dropWhileEnd_idem (p : Char → Bool) (s : JStr) :
    dropWhileEnd p (dropWhileEnd p s) = dropWhileEnd p s := by
  induction s with
  | nil => rfl
  | cons c t ih =>
    simp only [dropWhileEnd]
    by_cases h : dropWhileEnd p t = []
    · by_cases hpc : p c = true <;> simp [dropWhileEnd, h, hpc]
    · simp [dropWhileEnd, h, ih]

theorem jsTrim_idem (s : JStr) : jsTrim (jsTrim s) = jsTrim s := by
  have h1 : (jsTrim s).dropWhile isWsChar = jsTrim s := by
    cases h : jsTrim s with
    | nil => rfl
    | cons c r =>
      obtain ⟨t, ht⟩ := head_dropWhileEnd h
      rw [List.dropWhile_cons, dropWhile_head_false ht]
      simp
  show dropWhileEnd isWsChar ((jsTrim s).dropWhile isWsChar) = jsTrim s
  rw [h1]
  show dropWhileEnd isWsChar (dropWhileEnd isWsChar (s.dropWhile isWsChar)) = _
  rw [dropWhileEnd_idem]
  rfl

/-- Preprocessing (`toLowerCase().trim()`) is idempotent: `fuzzyScore`'s
internal re-processing of the already-processed query is the identity. -/
theorem procQuery_idem (s : JStr) :
    jsTrim (jsToLower (jsTrim (jsToLower s))) = jsTrim (jsToLower s) := by
  rw [jsTrim_jsToLower (jsTrim (jsToLower s)), jsTrim_idem, jsTrim_jsToLower s,
    jsToLower_idem]

/-! ### Claim C1: jump-budget rejection -/

theorem splitWsAux_ne_nil (s : JStr) (acc : JStr) (h : acc ≠ []) :
    splitWsAux s acc ≠ [] := by
  induction s generalizing acc with
  | nil => simp [splitWsAux, h]
  | cons c rest ih =>
    simp only [splitWsAux]
    by_cases hws : isWsChar c = true
    · simp [hws, h]
    · simp only [hws, if_false]
      exact ih (c :: acc) (by simp)

theorem matchWordsLoop_none_of_exceeded {ws : List JStr} {t w : JStr} {j : Nat}
    (hmem : w ∈ ws) (hj : bestWordJumps w t = some j)
    (hex : jumpThresholdExceeded w.length j = true) :
    matchWordsLoop ws t = none := by
  induction ws with
  | nil => simp at hmem
  | cons w0 ws0 ih =>
    rcases List.mem_cons.mp hmem with hw | hw
    · subst hw
      simp [matchWordsLoop, hj, hex]
    · simp only [matchWordsLoop]
      cases h0 : bestWordJumps w0 t with
      | none => rfl
      | some j0 =>
        by_cases hx : jumpThresholdExceeded w0.length j0 = true
        · simp [hx]
        · simp [hx, ih hw]

/-- C1.  For every query word and target field, if the word occurs as a
subsequence (minimum jump count `j` over all start offsets) but
`j > threshold(word)` — `len * 1.0` for `len ≤ 3`, else `len * 1.5` —
then `fuzzyScore` invalidates the match and returns the no-match
sentinel (`-Infinity`). -/
theorem fuzzyScore_jump_budget_reject (q t w : JStr) (j : Nat)
    (hw : w ∈ splitWs (jsTrim (jsToLower q)))
    (hj : bestWordJumps w (jsToLower t) = some j)
    (hex : jumpThresholdExceeded w.length j = true) :
    fuzzyScore q t = FScore.negInf := by
  have hq : jsTrim (jsToLower q) ≠ [] := by
    intro h
    rw [h] at hw
    simp [splitWs, splitWsAux] at hw
  have hwords : splitWs (jsTrim (jsToLower q)) ≠ [] := List.ne_nil_of_mem hw
  simp only [fuzzyScore, hq, if_false, hwords,
    matchWordsLoop_none_of_exceeded hw hj hex]

/-- C1 witness: the word "ian" matches the target "ixxaxxxn" only with
5 jumps, which exceeds its threshold 3, so the field is rejected. -/
theorem fuzzyScore_jump_budget_reject_witness :
    S "ian" ∈ splitWs (jsTrim (jsToLower (S "ian"))) ∧
    bestWordJumps (S "ian") (jsToLower (S "ixxaxxxn")) = some 5 ∧
    jumpThresholdExceeded (S "ian").length 5 = true ∧
    fuzzyScore (S "ian") (S "ixxaxxxn") = FScore.negInf :=
  ⟨by decide, by decide, by with_unfolding_all decide,
    fuzzyScore_jump_budget_reject (S "ian") (S "ixxaxxxn") (S "ian") 5
      (by decide) (by decide) (by with_unfolding_all decide)⟩

/-! ### Claim C2: the weighted scorer matches the spec's reference definition -/

theorem matchWordsLoop_spec (ws : List JStr) (t : JStr) :
    matchWordsLoop ws t =
      if ws.all (fun w => specWordOk w t) then some (specTotalJumps ws t) else none := by
  induction ws with
  | nil => simp [matchWordsLoop, specTotalJumps]
  | cons w ws ih =>
    simp only [matchWordsLoop, List.all_cons]
    cases hw : bestWordJumps w t with
    | none => simp [specWordOk, hw]
    | some j =>
      by_cases hx : jumpThresholdExceeded w.length j = true
      · simp [specWordOk, hw, hx]
      · have hok : specWordOk w t = true := by simp [specWordOk, hw, hx]
        rw [ih]
        by_cases hall : ws.all (fun w => specWordOk w t) = true
        · simp [hx, hok, hall, specTotalJumps, hw]
        · simp [hx, hok, hall]

theorem splitWs_ne_nil_of_trim {s : JStr} (h : jsTrim s ≠ []) : splitWs (jsTrim s) ≠ [] := by
  cases hq : jsTrim s with
  | nil => exact absurd hq h
  | cons c t =>
    have hc : isWsChar c = false := by
      obtain ⟨t', ht'⟩ := head_dropWhileEnd hq
      exact dropWhile_head_false ht'
    show splitWsAux (c :: t) [] ≠ []
    simp only [splitWsAux, hc, if_false, Bool.false_eq_true]
    exact splitWsAux_ne_nil t [c] (by simp)

theorem fuzzy_eq_spec (q : JStr) (hq : jsTrim (jsToLower q) = q) (hne : q ≠ [])
    (field : JStr) :
    fuzzyScore q (jsToLower field) = optToFScore (specFieldScore (splitWs q) q.length field) := by
  have hwords : splitWs q ≠ [] := by
    rw [← hq]
    exact splitWs_ne_nil_of_trim (by rw [hq]; exact hne)
  simp only [fuzzyScore, hq, hne, if_false, hwords, jsToLower_idem,
    matchWordsLoop_spec, specFieldScore]
  by_cases hall : (splitWs q).all (fun w => specWordOk w (jsToLower field)) = true
  · simp [hall, optToFScore]
  · simp [hall, optToFScore]

/-- `startsWithStr s pat`: does `s` start with `pat`? -/
def startsWithStr : JStr → JStr → Bool
  | _, [] => true
  | [], _ :: _ => false
  | c :: cs, p :: ps => c == p && startsWithStr cs ps

/-- Unanchored substring search; models `regex.test` with a literal
pattern (the host tests `/docs\.google\.com/i` and `/github\.com/i` are
applied to the already-lowercased hostname). -/
def containsSub : JStr → JStr → Bool
  | [], pat => startsWithStr [] pat
  | c :: rest, pat => startsWithStr (c :: rest) pat || containsSub rest pat

/-- Split a string at the first occurrence of a character (`none` when
the character does not occur). -/
def splitAtChar (sep : Char) : JStr → Option (JStr × JStr)
  | [] => none
  | c :: rest =>
    if c == sep then some ([], rest)
    else
      match splitAtChar sep rest with
      | none => none
      | some (a, b) => some (c :: a, b)

/-- URL scheme validity: `[A-Za-z][A-Za-z0-9+.-]*`. -/
def schemeOK : JStr → Bool
  | [] => false
  | c :: rest =>
    c.isAlpha && rest.all (fun d => d.isAlpha || d.isDigit || d == '+' || d == '-' || d == '.')

/-- The WHATWG special schemes modelled here.  `file` is treated as
non-special by the model (its distinctive slash handling is not
modelled); this affects no claim because `file:` URLs never reach the
Docs/GitHub branches and normalize idempotently either way. -/
def specialScheme (sch : JStr) : Bool :=
  sch == S "http" || sch == S "https" || sch == S "ws" || sch == S "wss" || sch == S "ftp"

/-- Parsed URL as the normalizer reads it: `protocol` (without the
colon), `hostname`, `pathname`, and whether an authority (`//` part) was
parsed (`auth = false` for opaque paths such as `mailto:...`). -/
structure JsUrl where
  scheme : JStr
  host : JStr
  path : JStr
  auth : Bool
deriving DecidableEq

/-- Slash characters skipped after a special scheme's colon (the
"special authority ignore slashes" rule: `https:foo.com` and
`https:\\foo.com` both parse like `https://foo.com`). -/
def isSlashChar (c : Char) : Bool := c == '/' || c == '\\'

/-- Character that does not end a special scheme's authority. -/
def notAuthEnd (c : Char) : Bool := !(c == '/' || c == '\\' || c == '?' || c == '#')

/-- Character that does not end a non-special scheme's authority
(backslash is an ordinary character there). -/
def notHostEnd (c : Char) : Bool := !(c == '/' || c == '?' || c == '#')

/-- Character belonging to the path (before query/fragment). -/
def notQF (c : Char) : Bool := !(c == '?' || c == '#')

/-- Drop the userinfo: the part of an authority after the last `'@'`
(the whole authority when there is none).  `url.hostname` never includes
the userinfo. -/
def afterLastAt (a : JStr) : JStr := (a.reverse.takeWhile (fun c => !(c == '@'))).reverse

/-- Split off a `:port` suffix of the host-and-port part: the host is the
part before the first `':'`, and a non-numeric port makes the constructor
throw (`none`).  `url.hostname` never includes the port. -/
def stripPort (hp : JStr) : Option JStr :=
  match splitAtChar ':' hp with
  | none => some hp
  | some (h, p) => if p.all Char.isDigit then some h else none

/-- `'\'` → `'/'`: in special-scheme paths the browser treats a backslash
as a segment separator. -/
def slashNorm (c : Char) : Char := if c == '\\' then '/' else c

/-- Model of the browser `new URL(url)` constructor.  The scheme is split
at the first `':'` and lowercased (no colon, or an invalid scheme, makes
the constructor throw, `none`).  For the special schemes `http`, `https`,
`ws`, `wss` and `ftp`: any run of `/` and `\` after the colon is skipped,
the authority runs to the next `/`, `\`, `?` or `#`, the userinfo (up to
the last `@`) is dropped, a numeric `:port` is dropped (a non-numeric one
throws), the host is lowercased and must be non-empty, `\` in the path
becomes `/`, and an empty path is reported as `"/"`.  For other schemes a
literal `//` introduces an authority parsed the same way except that the
host may be empty, keeps its case and may contain `\`, and an empty path
stays empty; without `//` the remainder is an opaque path with no host
(e.g. `mailto:x@y.com`).  The query and fragment are cut at the first
`?`/`#` (the normalizer only reads `protocol`, `hostname` and
`pathname`).  Not modelled, each checked not to affect a claim proved
below: tab/newline and surrounding-space stripping, percent-encoding,
dot-segment resolution, IDNA and host-character validation, `[...]` IPv6
hosts (the model throws at the numeric-port check where the browser
parses them; both sides normalize such URLs idempotently), the `file`
scheme's slash rules, and the port-range check. -/
def jsParseUrl (s : JStr) : Option JsUrl :=
  match splitAtChar ':' s with
  | none => none
  | some (schRaw, rest) =>
    let sch := jsToLower schRaw
    if schemeOK sch then
      if specialScheme sch then
        let rest2 := rest.dropWhile isSlashChar
        let authPart := rest2.takeWhile notAuthEnd
        match stripPort (afterLastAt authPart) with
        | none => none
        | some h =>
          if h = [] then none
          else
            let path0 := ((rest2.drop authPart.length).takeWhile notQF).map slashNorm
            some ⟨sch, jsToLower h, if path0 = [] then S "/" else path0, true⟩
      else if startsWithStr rest (S "//") then
        let after := rest.drop 2
        let authPart := after.takeWhile notHostEnd
        match stripPort (afterLastAt authPart) with
        | none => none
        | some h =>
          some ⟨sch, h, (after.drop authPart.length).takeWhile notQF, true⟩
      else some ⟨sch, [], rest.takeWhile notQF, false⟩
    else none

/-- Model of `pathname.match(/\/<collection>\/d\/([^\/]+)/)`: find the
first position where the literal `pat` occurs followed by a non-empty
run of non-`'/'` characters, and return that run (the capture). -/
def searchSeg (pat : JStr) : JStr → Option JStr
  | [] => none
  | c :: rest =>
    if startsWithStr (c :: rest) pat then
      let cap := ((c :: rest).drop pat.length).takeWhile (fun d => !(d == '/'))
      if cap = [] then searchSeg pat rest else some cap
    else searchSeg pat rest

/-- `String.prototype.split(sep)` for a single-character separator. -/
def splitOnChar (sep : Char) : JStr → List JStr
  | [] => [[]]
  | c :: rest =>
    if c == sep then [] :: splitOnChar sep rest
    else
      match splitOnChar sep rest with
      | [] => [[c]]
      | w :: ws => (c :: w) :: ws

/-- The parse-success branch of `normalizeUrlForDedup` (part_000 lines
143-166): Docs URLs reduce to `https://docs.google.com/<collection>/d/<ID>`,
GitHub URLs to `https://github.com/owner/repo`, other URLs keep
`protocol//hostname + pathname` (query and fragment dropped).  The host
tests are the case-insensitive regexes `/docs\.google\.com/i` and
`/github\.com/i`, modelled by lowercasing the hostname before the
substring test (special-scheme hostnames are already lowercase). -/
def normBody (u : JsUrl) : JStr :=
    if containsSub (jsToLower u.host) (S "docs.google.com") then
      match searchSeg (S "/document/d/") u.path with
      | some docId => S "https://docs.google.com/document/d/" ++ docId
      | none =>
        match searchSeg (S "/spreadsheets/d/") u.path with
        | some docId => S "https://docs.google.com/spreadsheets/d/" ++ docId
        | none =>
          match searchSeg (S "/presentation/d/") u.path with
          | some docId => S "https://docs.google.com/presentation/d/" ++ docId
          | none => u.scheme ++ S "://" ++ u.host ++ u.path
    else if containsSub (jsToLower u.host) (S "github.com") then
      match (splitOnChar '/' u.path).filter (fun p => p ≠ []) with
      | p0 :: p1 :: _ => S "https://github.com/" ++ p0 ++ S "/" ++ p1
      | _ => u.scheme ++ S "://" ++ u.host ++ u.path
    else u.scheme ++ S "://" ++ u.host ++ u.path

/-- `normalizeUrlForDedup` (part_000 lines 140-170): parse, then apply
`normBody`; unparseable input is returned unchanged (the `catch`). -/
def normalizeUrlForDedup (url : JStr) : JStr :=
  match jsParseUrl url with
  | none => url
  | some u => normBody u

example :
    normalizeUrlForDedup (S "https://docs.google.com/document/d/ABC123/edit?usp=x#top") =
    S "https://docs.google.com/document/d/ABC123" := by decide
example :
    normalizeUrlForDedup (S "HTTP://GitHub.com/Owner/Repo/issues/5?q=1") =
    S "https://github.com/Owner/Repo" := by decide
example : normalizeUrlForDedup (S "not a url") = S "not a url" := by decide
example :
    normalizeUrlForDedup (S "https://example.com/a/b?q#f") = S "https://example.com/a/b" := by
  decide
example : normalizeUrlForDedup (S "https://example.com") = S "https://example.com/" := by decide
example : normalizeUrlForDedup (S "https://user:pw@Example.com:8080/A/b?q") =
    S "https://example.com/A/b" := by decide
example : normalizeUrlForDedup (S "mailto:x@y.com") = S "mailto://x@y.com" := by decide
example : normalizeUrlForDedup (S "mailto://x@y.com") = S "mailto://y.com" := by decide
example : normalizeUrlForDedup (S "https:\\\\github.com\\Owner\\Repo\\x") =
    S "https://github.com/Owner/Repo" := by decide

/-! ### Claim C6: normalization is idempotent — string-matching lemmas -/

theorem startsWith_append_self (pat r : JStr) : startsWithStr (pat ++ r) pat = true := by
  induction pat with
  | nil => simp [startsWithStr]
  | cons p ps ih => simp [startsWithStr, ih]

theorem startsWith_mem {s pat : JStr} (h : startsWithStr s pat = true) (c : Char)
    (hc : c ∈ pat) : c ∈ s := by
  induction pat generalizing s with
  | nil => simp at hc
  | cons p ps ih =>
    cases s with
    | nil => simp [startsWithStr] at h
    | cons a s' =>
      simp only [startsWithStr, Bool.and_eq_true, beq_iff_eq] at h
      rcases List.mem_cons.mp hc with hc | hc
      · subst hc
        exact h.1 ▸ List.mem_cons_self a s'
      · exact List.mem_cons_of_mem a (ih h.2 hc)

theorem startsWith_append_split {a b pat : JStr} (h : startsWithStr (a ++ b) pat = true) :
    startsWithStr a (pat.take a.length) = true ∧
      startsWithStr b (pat.drop a.length) = true := by
  induction a generalizing pat with
  | nil => simpa [startsWithStr] using h
  | cons c a' ih =>
    cases pat with
    | nil => simp [startsWithStr]
    | cons p ps =>
      simp only [List.cons_append, startsWithStr, Bool.and_eq_true] at h
      have := ih h.2
      simp only [List.length_cons, List.take_succ_cons, List.drop_succ_cons, startsWithStr,
        Bool.and_eq_true]
      exact ⟨⟨h.1, this.1⟩, this.2⟩

theorem takeWhile_all {p : Char → Bool} {l : JStr} (h : ∀ c ∈ l, p c = true) :
    l.takeWhile p = l := by
  induction l with
  | nil => rfl
  | cons c t ih =>
    rw [List.takeWhile_cons, h c (List.mem_cons_self c t)]
    simp only [if_true]
    rw [ih (fun d hd => h d (List.mem_cons_of_mem c hd))]

theorem searchSeg_props {pat s cap : JStr} (h : searchSeg pat s = some cap) :
    cap ≠ [] ∧ (∀ c ∈ cap, (c == '/') = false) ∧ (∀ c ∈ cap, c ∈ s) := by
  induction s with
  | nil => simp [searchSeg] at h
  | cons c rest ih =>
    simp only [searchSeg] at h
    by_cases hsw : startsWithStr (c :: rest) pat = true
    · simp only [hsw, if_true] at h
      by_cases hcap : ((c :: rest).drop pat.length).takeWhile (fun d => !(d == '/')) = []
      · simp only [hcap, if_pos rfl] at h
        obtain ⟨h1, h2, h3⟩ := ih h
        exact ⟨h1, h2, fun d hd => List.mem_cons_of_mem c (h3 d hd)⟩
      · simp only [if_neg hcap] at h
        rw [Option.some.injEq] at h
        subst h
        refine ⟨hcap, ?_, ?_⟩
        · intro d hd
          have := List.mem_takeWhile_imp hd
          simpa using this
        · intro d hd
          exact (List.drop_sublist pat.length (c :: rest)).mem
            ((List.takeWhile_sublist _).mem hd)
    · simp only [hsw, if_false] at h
      obtain ⟨h1, h2, h3⟩ := ih h
      exact ⟨h1, h2, fun d hd => List.mem_cons_of_mem c (h3 d hd)⟩

theorem searchSeg_self {pat cap : JStr} (hp : pat ≠ []) (hcne : cap ≠ [])
    (hc : ∀ c ∈ cap, (c == '/') = false) :
    searchSeg pat (pat ++ cap) = some cap := by
  cases pat with
  | nil => exact absurd rfl hp
  | cons p ps =>
    show searchSeg (p :: ps) (p :: (ps ++ cap)) = some cap
    simp only [searchSeg]
    rw [show p :: (ps ++ cap) = (p :: ps) ++ cap from rfl, startsWith_append_self]
    simp only [if_true]
    rw [show ((p :: ps) ++ cap).drop (p :: ps).length = cap from List.drop_left _ _]
    rw [takeWhile_all (by simpa using hc)]
    simp [hcne]

/-- Within-prefix occurrence check: at every start inside `pre`, either
the literal comparison with `pat` fails inside `pre`, or the compared
suffix of `pre` is strictly shorter than `pat` (so a full match would
have to continue into the appended segment). -/
def noMidOcc (pat : JStr) : JStr → Bool
  | [] => true
  | c :: rest =>
    (!startsWithStr (c :: rest) (pat.take (c :: rest).length) ||
      decide ((c :: rest).length < pat.length)) && noMidOcc pat rest

theorem mem_drop_of_append_single {p' : JStr} {x : Char} {k : Nat}
    (h : k < (p' ++ [x]).length) : x ∈ (p' ++ [x]).drop k := by
  have hk : k ≤ p'.length := by
    simpa using Nat.lt_succ_iff.mp (by simpa using h)
  rw [List.drop_append_of_le_length hk]
  exact List.mem_append_right _ (List.mem_singleton_self x)

theorem searchSeg_none_no_slash {pat s : JStr} (hslash : '/' ∈ pat)
    (hs : ∀ c ∈ s, (c == '/') = false) : searchSeg pat s = none := by
  induction s with
  | nil => rfl
  | cons c rest ih =>
    simp only [searchSeg]
    have hsw : startsWithStr (c :: rest) pat = false := by
      rw [Bool.eq_false_iff]
      intro h
      have := hs '/' (startsWith_mem h '/' hslash)
      simp at this
    rw [hsw]
    simp only [Bool.false_eq_true, if_false]
    exact ih (fun d hd => hs d (List.mem_cons_of_mem c hd))

theorem searchSeg_none_append {pat pre seg : JStr} (p' : JStr) (hpat : pat = p' ++ ['/'])
    (hseg : ∀ c ∈ seg, (c == '/') = false) (hpre : noMidOcc pat pre = true) :
    searchSeg pat (pre ++ seg) = none := by
  induction pre with
  | nil =>
    rw [List.nil_append]
    exact searchSeg_none_no_slash (by rw [hpat]; simp) hseg
  | cons c rest ih =>
    simp only [noMidOcc, Bool.and_eq_true, Bool.or_eq_true, Bool.not_eq_true',
      decide_eq_true_eq] at hpre
    rw [List.cons_append]
    simp only [searchSeg]
    have hsw : startsWithStr (c :: (rest ++ seg)) pat = false := by
      rw [Bool.eq_false_iff]
      intro h
      rw [show c :: (rest ++ seg) = (c :: rest) ++ seg from rfl] at h
      obtain ⟨h1, h2⟩ := startsWith_append_split h
      rcases hpre.1 with hfail | hshort
      · rw [hfail] at h1
        simp at h1
      · have hlt : (c :: rest).length < (p' ++ ['/']).length := hpat ▸ hshort
        have hmem : '/' ∈ pat.drop (c :: rest).length := by
          rw [hpat]
          exact mem_drop_of_append_single hlt
        have := hseg '/' (startsWith_mem h2 '/' hmem)
        simp at this
    rw [hsw]
    simp only [Bool.false_eq_true, if_false]
    exact ih hpre.2

/-! ### C6: splitOnChar, splitAtChar, userinfo and port lemmas -/

theorem splitOnChar_no_sep {sep : Char} {s : JStr} (h : ∀ c ∈ s, (c == sep) = false) :
    splitOnChar sep s = [s] := by
  induction s with
  | nil => rfl
  | cons c t ih =>
    simp only [splitOnChar, h c (List.mem_cons_self c t)]
    simp only [Bool.false_eq_true, if_false]
    rw [ih (fun d hd => h d (List.mem_cons_of_mem c hd))]

theorem splitOnChar_sep_cons (sep : Char) (rest : JStr) :
    splitOnChar sep (sep :: rest) = [] :: splitOnChar sep rest := by
  simp [splitOnChar]

theorem splitOnChar_append_sep {sep : Char} {w : JStr} (rest : JStr)
    (hw : ∀ c ∈ w, (c == sep) = false) :
    splitOnChar sep (w ++ sep :: rest) = w :: splitOnChar sep rest := by
  induction w with
  | nil => simp [splitOnChar]
  | cons c t ih =>
    simp only [List.cons_append, splitOnChar, hw c (List.mem_cons_self c t),
      Bool.false_eq_true, if_false, List.append_eq]
    rw [ih (fun d hd => hw d (List.mem_cons_of_mem c hd))]

theorem splitOnChar_ne_nil (sep : Char) (s : JStr) : splitOnChar sep s ≠ [] := by
  cases s with
  | nil => simp [splitOnChar]
  | cons c t =>
    simp only [splitOnChar]
    by_cases h : (c == sep) = true
    · simp [h]
    · simp only [h, Bool.false_eq_true, if_false]
      cases hs : splitOnChar sep t <;> simp

theorem splitAtChar_append {sep : Char} {a : JStr} (b : JStr)
    (ha : ∀ c ∈ a, (c == sep) = false) :
    splitAtChar sep (a ++ sep :: b) = some (a, b) := by
  induction a with
  | nil =>
    show splitAtChar sep (sep :: b) = some ([], b)
    rw [splitAtChar]
    simp
  | cons c t ih =>
    show splitAtChar sep (c :: (t ++ sep :: b)) = some (c :: t, b)
    rw [splitAtChar]
    rw [ha c (List.mem_cons_self c t)]
    simp only [Bool.false_eq_true, if_false]
    rw [ih (fun d hd => ha d (List.mem_cons_of_mem c hd))]

theorem splitAtChar_none_of_no_sep {sep : Char} {s : JStr}
    (h : ∀ c ∈ s, (c == sep) = false) : splitAtChar sep s = none := by
  induction s with
  | nil => rfl
  | cons c t ih =>
    rw [splitAtChar, h c (List.mem_cons_self c t)]
    simp only [Bool.false_eq_true, if_false]
    rw [ih (fun d hd => h d (List.mem_cons_of_mem c hd))]

theorem no_sep_of_splitAtChar_none {sep : Char} {s : JStr} (h : splitAtChar sep s = none) :
    ∀ c ∈ s, (c == sep) = false := by
  induction s with
  | nil => simp
  | cons c t ih =>
    rw [splitAtChar] at h
    by_cases hc : (c == sep) = true
    · rw [hc] at h
      simp at h
    · rw [Bool.not_eq_true] at hc
      rw [hc] at h
      simp only [Bool.false_eq_true, if_false] at h
      intro d hd
      rcases List.mem_cons.mp hd with h' | h'
      · subst h'; exact hc
      · cases hsp : splitAtChar sep t with
        | none => exact ih hsp d h'
        | some pr =>
          rw [hsp] at h
          obtain ⟨a, b⟩ := pr
          simp at h

theorem splitAtChar_props {sep : Char} {s a b : JStr} (h : splitAtChar sep s = some (a, b)) :
    s = a ++ sep :: b ∧ ∀ c ∈ a, (c == sep) = false := by
  induction s generalizing a with
  | nil => simp [splitAtChar] at h
  | cons c t ih =>
    rw [splitAtChar] at h
    by_cases hc : (c == sep) = true
    · rw [hc] at h
      simp only [if_true] at h
      rw [Option.some.injEq, Prod.mk.injEq] at h
      obtain ⟨h1, h2⟩ := h
      subst h1; subst h2
      refine ⟨by simpa using (beq_iff_eq.mp hc), by simp⟩
    · rw [Bool.not_eq_true] at hc
      rw [hc] at h
      simp only [Bool.false_eq_true, if_false] at h
      cases hsp : splitAtChar sep t with
      | none => rw [hsp] at h; simp at h
      | some pr =>
        obtain ⟨a', b'⟩ := pr
        rw [hsp] at h
        simp only [Option.some.injEq, Prod.mk.injEq] at h
        obtain ⟨h1, h2⟩ := h
        subst h2
        obtain ⟨ht, ha'⟩ := ih hsp
        subst ht
        refine ⟨by rw [← h1]; rfl, ?_⟩
        intro d hd
        rw [← h1] at hd
        rcases List.mem_cons.mp hd with h' | h'
        · subst h'; exact hc
        · exact ha' d h'

theorem afterLastAt_no_at (a : JStr) : ∀ c ∈ afterLastAt a, (c == '@') = false := by
  intro c hc
  unfold afterLastAt at hc
  rw [List.mem_reverse] at hc
  simpa using List.mem_takeWhile_imp hc

theorem afterLastAt_subset (a : JStr) : ∀ c ∈ afterLastAt a, c ∈ a := by
  intro c hc
  unfold afterLastAt at hc
  rw [List.mem_reverse] at hc
  exact List.mem_reverse.mp ((List.takeWhile_sublist _).mem hc)

theorem afterLastAt_of_no_at {a : JStr} (h : ∀ c ∈ a, (c == '@') = false) :
    afterLastAt a = a := by
  unfold afterLastAt
  rw [takeWhile_all (by
    intro c hc
    rw [List.mem_reverse] at hc
    simpa using h c hc)]
  exact List.reverse_reverse a

theorem stripPort_of_no_colon {hp : JStr} (h : ∀ c ∈ hp, (c == ':') = false) :
    stripPort hp = some hp := by
  unfold stripPort
  rw [splitAtChar_none_of_no_sep h]

theorem stripPort_props {hp h : JStr} (hs : stripPort hp = some h) :
    (∀ c ∈ h, c ∈ hp) ∧ (∀ c ∈ h, (c == ':') = false) := by
  unfold stripPort at hs
  cases hsp : splitAtChar ':' hp with
  | none =>
    rw [hsp] at hs
    rw [Option.some.injEq] at hs
    subst hs
    exact ⟨fun c hc => hc, no_sep_of_splitAtChar_none hsp⟩
  | some pr =>
    obtain ⟨a, p⟩ := pr
    rw [hsp] at hs
    simp only at hs
    by_cases hd : p.all Char.isDigit = true
    · rw [if_pos hd] at hs
      rw [Option.some.injEq] at hs
      subst hs
      obtain ⟨heq, hcol⟩ := splitAtChar_props hsp
      exact ⟨fun c hc => heq ▸ List.mem_append_left _ hc, hcol⟩
    · rw [if_neg hd] at hs
      simp at hs

theorem slashNorm_eq_self {c : Char} (h : (c == '\\') = false) : slashNorm c = c := by
  simp [slashNorm, h]

theorem slashNorm_beq_backslash (c : Char) : (slashNorm c == '\\') = false := by
  by_cases h : (c == '\\') = true
  · have : c = '\\' := beq_iff_eq.mp h
    subst this
    decide
  · rw [Bool.not_eq_true] at h
    rw [slashNorm_eq_self h]
    exact h

theorem notQF_slashNorm (c : Char) : notQF (slashNorm c) = notQF c := by
  by_cases h : (c == '\\') = true
  · have : c = '\\' := beq_iff_eq.mp h
    subst this
    decide
  · rw [Bool.not_eq_true] at h
    rw [slashNorm_eq_self h]

theorem map_slashNorm_of_no_backslash {l : JStr} (h : ∀ c ∈ l, (c == '\\') = false) :
    l.map slashNorm = l := by
  induction l with
  | nil => rfl
  | cons c t ih =>
    rw [List.map_cons, slashNorm_eq_self (h c (List.mem_cons_self c t)),
      ih (fun d hd => h d (List.mem_cons_of_mem c hd))]

/-! ### C6: parse-output invariants and the render round-trip -/

theorem beq_eq_false_of_toNat {c d : Char} (h : c.toNat ≠ d.toNat) : (c == d) = false := by
  simp only [beq_eq_false_iff_ne, ne_eq]
  exact fun he => h (he ▸ rfl)

theorem beq_toLower_eq (c d : Char) (h1 : ¬(65 ≤ d.toNat ∧ d.toNat ≤ 90))
    (h2 : ¬(97 ≤ d.toNat ∧ d.toNat ≤ 122)) :
    (Char.toLower c == d) = (c == d) := by
  by_cases hc : c.toNat ≥ 65 ∧ c.toNat ≤ 90
  · have hl : (Char.toLower c).toNat = c.toNat + 32 := by rw [toNat_toLower, if_pos hc]
    rw [beq_eq_false_of_toNat (show (Char.toLower c).toNat ≠ d.toNat by omega),
      beq_eq_false_of_toNat (show c.toNat ≠ d.toNat by omega)]
  · rw [toLower_eq_self_of_not_cond hc]

theorem notHostEnd_toLower (c : Char) : notHostEnd (Char.toLower c) = notHostEnd c := by
  simp only [notHostEnd]
  rw [beq_toLower_eq c '/' (by decide) (by decide), beq_toLower_eq c '?' (by decide) (by decide),
    beq_toLower_eq c '#' (by decide) (by decide)]

theorem notAuthEnd_toLower (c : Char) : notAuthEnd (Char.toLower c) = notAuthEnd c := by
  simp only [notAuthEnd]
  rw [beq_toLower_eq c '/' (by decide) (by decide), beq_toLower_eq c '\\' (by decide) (by decide),
    beq_toLower_eq c '?' (by decide) (by decide), beq_toLower_eq c '#' (by decide) (by decide)]

theorem notAuthEnd_split {c : Char} (h : notAuthEnd c = true) :
    (c == '/') = false ∧ (c == '\\') = false ∧ (c == '?') = false ∧ (c == '#') = false := by
  revert h
  unfold notAuthEnd
  cases h1 : c == '/' <;> cases h2 : c == '\\' <;> cases h3 : c == '?' <;>
    cases h4 : c == '#' <;> simp

theorem notHostEnd_of_notAuthEnd {c : Char} (h : notAuthEnd c = true) : notHostEnd c = true := by
  obtain ⟨h1, h2, h3, h4⟩ := notAuthEnd_split h
  simp [notHostEnd, h1, h3, h4]

theorem backslash_eq_false_of_notAuthEnd {c : Char} (h : notAuthEnd c = true) :
    (c == '\\') = false :=
  (notAuthEnd_split h).2.1

theorem isSlashChar_eq_false_of_notAuthEnd {c : Char} (h : notAuthEnd c = true) :
    isSlashChar c = false := by
  obtain ⟨h1, h2, h3, h4⟩ := notAuthEnd_split h
  simp [isSlashChar, h1, h2]

theorem eq_slash_of_notHostEnd_false {a : Char} (hF : notHostEnd a = false)
    (hq : notQF a = true) : a = '/' := by
  unfold notHostEnd at hF
  unfold notQF at hq
  cases h1 : a == '/' with
  | true => exact beq_iff_eq.mp h1
  | false =>
    rw [h1] at hF
    cases h3 : a == '?' <;> cases h4 : a == '#' <;> rw [h3, h4] at hF hq <;> simp_all

theorem slash_or_backslash_of_notAuthEnd_false {a : Char} (hF : notAuthEnd a = false)
    (hq : notQF a = true) : a = '/' ∨ a = '\\' := by
  unfold notAuthEnd at hF
  unfold notQF at hq
  cases h1 : a == '/' with
  | true => exact Or.inl (beq_iff_eq.mp h1)
  | false =>
    cases h2 : a == '\\' with
    | true => exact Or.inr (beq_iff_eq.mp h2)
    | false =>
      rw [h1, h2] at hF
      cases h3 : a == '?' <;> cases h4 : a == '#' <;> rw [h3, h4] at hF hq <;> simp_all

theorem drop_length_takeWhile (p : Char → Bool) (l : JStr) :
    l.drop (l.takeWhile p).length = l.dropWhile p := by
  induction l with
  | nil => rfl
  | cons c t ih =>
    rw [List.takeWhile_cons, List.dropWhile_cons]
    by_cases hp : p c = true
    · simp only [hp, if_true, List.length_cons, List.drop_succ_cons]
      exact ih
    · simp [hp]

theorem stripPort_host_facts {a h0 : JStr} (hstrip : stripPort (afterLastAt a) = some h0) :
    (∀ c ∈ h0, c ∈ a) ∧ (∀ c ∈ h0, (c == ':') = false) ∧ (∀ c ∈ h0, (c == '@') = false) := by
  obtain ⟨hsub, hcol⟩ := stripPort_props hstrip
  exact ⟨fun c hc => afterLastAt_subset _ c (hsub c hc), hcol,
    fun c hc => afterLastAt_no_at _ c (hsub c hc)⟩

theorem jsParseUrl_props {s : JStr} {u : JsUrl} (h : jsParseUrl s = some u)
    (ha : u.auth = true) :
    schemeOK u.scheme = true ∧ jsToLower u.scheme = u.scheme ∧
    (∀ c ∈ u.host, notHostEnd c = true) ∧ (∀ c ∈ u.host, (c == ':') = false) ∧
    (∀ c ∈ u.host, (c == '@') = false) ∧
    (u.path = [] ∨ ∃ p', u.path = '/' :: p') ∧ (∀ c ∈ u.path, notQF c = true) ∧
    (specialScheme u.scheme = true →
      u.host ≠ [] ∧ jsToLower u.host = u.host ∧ (∀ c ∈ u.host, notAuthEnd c = true) ∧
      (∃ p', u.path = '/' :: p') ∧ (∀ c ∈ u.path, (c == '\\') = false)) := by
  unfold jsParseUrl at h
  cases hsp : splitAtChar ':' s with
  | none => rw [hsp] at h; simp at h
  | some pr =>
    obtain ⟨schRaw, rest⟩ := pr
    rw [hsp] at h
    simp only at h
    by_cases hok : schemeOK (jsToLower schRaw) = true
    · rw [if_pos hok] at h
      by_cases hspec : specialScheme (jsToLower schRaw) = true
      · rw [if_pos hspec] at h
        cases hstrip : stripPort (afterLastAt
            ((rest.dropWhile isSlashChar).takeWhile notAuthEnd)) with
        | none => rw [hstrip] at h; simp at h
        | some h0 =>
          rw [hstrip] at h
          simp only at h
          by_cases hh0 : h0 = []
          · rw [if_pos hh0] at h; simp at h
          · rw [if_neg hh0] at h
            rw [Option.some.injEq] at h
            subst h
            obtain ⟨hsub, hcol0, hat0⟩ := stripPort_host_facts hstrip
            have hae0 : ∀ c ∈ h0, notAuthEnd c = true := fun c hc =>
              List.mem_takeWhile_imp (hsub c hc)
            have hpath1 : ∃ p',
                (if (((rest.dropWhile isSlashChar).drop
                    ((rest.dropWhile isSlashChar).takeWhile notAuthEnd).length).takeWhile
                    notQF).map slashNorm = []
                  then S "/"
                  else (((rest.dropWhile isSlashChar).drop
                    ((rest.dropWhile isSlashChar).takeWhile notAuthEnd).length).takeWhile
                    notQF).map slashNorm) = '/' :: p' := by
              by_cases hp0 : (((rest.dropWhile isSlashChar).drop
                  ((rest.dropWhile isSlashChar).takeWhile notAuthEnd).length).takeWhile
                  notQF).map slashNorm = []
              · exact ⟨[], by rw [if_pos hp0]; rfl⟩
              · rw [if_neg hp0]
                rw [drop_length_takeWhile] at hp0 ⊢
                cases hafter : (rest.dropWhile isSlashChar).dropWhile notAuthEnd with
                | nil => rw [hafter] at hp0; simp at hp0
                | cons a rest' =>
                  have haF : notAuthEnd a = false := dropWhile_head_false hafter
                  rw [hafter] at hp0
                  rw [List.takeWhile_cons] at hp0 ⊢
                  by_cases hqa : notQF a = true
                  · have ha' : a = '/' ∨ a = '\\' :=
                      slash_or_backslash_of_notAuthEnd_false haF hqa
                    rw [if_pos hqa]
                    rw [List.map_cons]
                    rcases ha' with h1 | h1 <;> subst h1
                    · exact ⟨_, rfl⟩
                    · exact ⟨_, rfl⟩
                  · rw [if_neg hqa] at hp0
                    exact absurd rfl hp0
            refine ⟨hok, jsToLower_idem _, ?_, ?_, ?_, Or.inr hpath1, ?_, ?_⟩
            · intro c hc
              obtain ⟨d, hd, hde⟩ := List.mem_map.mp hc
              rw [← hde, notHostEnd_toLower]
              exact notHostEnd_of_notAuthEnd (hae0 d hd)
            · intro c hc
              obtain ⟨d, hd, hde⟩ := List.mem_map.mp hc
              rw [← hde, beq_toLower_eq d ':' (by decide) (by decide)]
              exact hcol0 d hd
            · intro c hc
              obtain ⟨d, hd, hde⟩ := List.mem_map.mp hc
              rw [← hde, beq_toLower_eq d '@' (by decide) (by decide)]
              exact hat0 d hd
            · intro c hc
              by_cases hp0 : (((rest.dropWhile isSlashChar).drop
                  ((rest.dropWhile isSlashChar).takeWhile notAuthEnd).length).takeWhile
                  notQF).map slashNorm = []
              · rw [if_pos hp0] at hc
                have : c = '/' := by simpa [S] using hc
                subst this
                rfl
              · rw [if_neg hp0] at hc
                obtain ⟨d, hd, hde⟩ := List.mem_map.mp hc
                rw [← hde, notQF_slashNorm]
                exact List.mem_takeWhile_imp hd
            · intro _
              refine ⟨?_, jsToLower_idem _, ?_, hpath1, ?_⟩
              · simp [jsToLower, List.map_eq_nil_iff, hh0]
              · intro c hc
                obtain ⟨d, hd, hde⟩ := List.mem_map.mp hc
                rw [← hde, notAuthEnd_toLower]
                exact hae0 d hd
              · intro c hc
                by_cases hp0 : (((rest.dropWhile isSlashChar).drop
                    ((rest.dropWhile isSlashChar).takeWhile notAuthEnd).length).takeWhile
                    notQF).map slashNorm = []
                · rw [if_pos hp0] at hc
                  have : c = '/' := by simpa [S] using hc
                  subst this
                  rfl
                · rw [if_neg hp0] at hc
                  obtain ⟨d, hd, hde⟩ := List.mem_map.mp hc
                  rw [← hde]
                  exact slashNorm_beq_backslash d
      · rw [if_neg hspec] at h
        by_cases hss : startsWithStr rest (S "//") = true
        · rw [if_pos hss] at h
          cases hstrip : stripPort (afterLastAt ((rest.drop 2).takeWhile notHostEnd)) with
          | none => rw [hstrip] at h; simp at h
          | some h0 =>
            rw [hstrip] at h
            rw [Option.some.injEq] at h
            subst h
            obtain ⟨hsub, hcol0, hat0⟩ := stripPort_host_facts hstrip
            have hhe0 : ∀ c ∈ h0, notHostEnd c = true := fun c hc =>
              List.mem_takeWhile_imp (hsub c hc)
            refine ⟨hok, jsToLower_idem _, hhe0, hcol0, hat0, ?_, ?_, ?_⟩
            · rw [drop_length_takeWhile]
              cases hafter : (rest.drop 2).dropWhile notHostEnd with
              | nil => exact Or.inl rfl
              | cons a rest' =>
                have haF : notHostEnd a = false := dropWhile_head_false hafter
                rw [List.takeWhile_cons]
                by_cases hqa : notQF a = true
                · have ha' : a = '/' := eq_slash_of_notHostEnd_false haF hqa
                  subst ha'
                  rw [if_pos hqa]
                  exact Or.inr ⟨_, rfl⟩
                · rw [if_neg hqa]
                  exact Or.inl rfl
            · intro c hc
              exact List.mem_takeWhile_imp hc
            · intro hspec'
              exact absurd hspec' hspec
        · rw [if_neg hss] at h
          rw [Option.some.injEq] at h
          subst h
          simp at ha
    · rw [if_neg hok] at h; simp at h

theorem schemeOK_no_colon {sch : JStr} (hs : schemeOK sch = true) :
    ∀ c ∈ sch, (c == ':') = false := by
  cases sch with
  | nil => simp [schemeOK] at hs
  | cons c0 rest =>
    simp only [schemeOK, Bool.and_eq_true, List.all_eq_true] at hs
    intro c hc
    rcases List.mem_cons.mp hc with h | h
    · subst h
      rw [beq_eq_false_iff_ne]
      intro he
      rw [he] at hs
      exact absurd hs.1 (by decide)
    · rw [beq_eq_false_iff_ne]
      intro he
      have h2 := hs.2 c h
      rw [he] at h2
      exact absurd h2 (by decide)

theorem jsParseUrl_render_special {sch host path : JStr}
    (hs : schemeOK sch = true) (hsl : jsToLower sch = sch) (hsp : specialScheme sch = true)
    (hh : host ≠ []) (hhl : jsToLower host = host)
    (hhc : ∀ c ∈ host, notAuthEnd c = true)
    (hhcol : ∀ c ∈ host, (c == ':') = false) (hhat : ∀ c ∈ host, (c == '@') = false)
    (hp : ∃ p', path = '/' :: p') (hpc : ∀ c ∈ path, notQF c = true)
    (hpb : ∀ c ∈ path, (c == '\\') = false) :
    jsParseUrl (sch ++ S "://" ++ host ++ path) = some ⟨sch, host, path, true⟩ := by
  obtain ⟨p', hp'⟩ := hp
  have hsplit : splitAtChar ':' (sch ++ S "://" ++ host ++ path) =
      some (sch, '/' :: '/' :: (host ++ path)) := by
    have he : sch ++ S "://" ++ host ++ path = sch ++ ':' :: ('/' :: '/' :: (host ++ path)) := by
      simp [S, List.append_assoc]
    rw [he, splitAtChar_append _ (schemeOK_no_colon hs)]
  have hslash : List.dropWhile isSlashChar ('/' :: '/' :: (host ++ path)) = host ++ path := by
    rw [List.dropWhile_cons, if_pos (by decide : isSlashChar '/' = true),
      List.dropWhile_cons, if_pos (by decide : isSlashChar '/' = true)]
    cases host with
    | nil => exact absurd rfl hh
    | cons h1 t =>
      show List.dropWhile isSlashChar (h1 :: (t ++ path)) = (h1 :: t) ++ path
      rw [List.dropWhile_cons,
        if_neg (by simp [isSlashChar_eq_false_of_notAuthEnd (hhc h1 (List.mem_cons_self h1 t))])]
      rfl
  have htw : (host ++ path).takeWhile notAuthEnd = host := by
    rw [List.takeWhile_append_of_pos (by simpa using hhc), hp', List.takeWhile_cons]
    simp [show notAuthEnd '/' = false by decide]
  unfold jsParseUrl
  rw [hsplit]
  simp only
  rw [hsl, if_pos hs, if_pos hsp, hslash, htw, afterLastAt_of_no_at hhat,
    stripPort_of_no_colon hhcol]
  simp only
  rw [if_neg hh, List.drop_left, takeWhile_all hpc, map_slashNorm_of_no_backslash hpb, hhl,
    if_neg (by rw [hp']; simp)]

theorem jsParseUrl_render_nonspecial {sch host path : JStr}
    (hs : schemeOK sch = true) (hsl : jsToLower sch = sch) (hsp : specialScheme sch = false)
    (hhc : ∀ c ∈ host, notHostEnd c = true)
    (hhcol : ∀ c ∈ host, (c == ':') = false) (hhat : ∀ c ∈ host, (c == '@') = false)
    (hp : path = [] ∨ ∃ p', path = '/' :: p') (hpc : ∀ c ∈ path, notQF c = true) :
    jsParseUrl (sch ++ S "://" ++ host ++ path) = some ⟨sch, host, path, true⟩ := by
  have hsplit : splitAtChar ':' (sch ++ S "://" ++ host ++ path) =
      some (sch, '/' :: '/' :: (host ++ path)) := by
    have he : sch ++ S "://" ++ host ++ path = sch ++ ':' :: ('/' :: '/' :: (host ++ path)) := by
      simp [S, List.append_assoc]
    rw [he, splitAtChar_append _ (schemeOK_no_colon hs)]
  have hss : startsWithStr ('/' :: '/' :: (host ++ path)) (S "//") = true := by
    simp [S, startsWithStr]
  have htw : (host ++ path).takeWhile notHostEnd = host := by
    rcases hp with hp | ⟨p', hp'⟩
    · subst hp
      rw [List.append_nil]
      exact takeWhile_all hhc
    · rw [List.takeWhile_append_of_pos (by simpa using hhc), hp', List.takeWhile_cons]
      simp [show notHostEnd '/' = false by decide]
  unfold jsParseUrl
  rw [hsplit]
  simp only
  rw [hsl, if_pos hs, if_neg (by simp [hsp]), if_pos hss,
    show ('/' :: '/' :: (host ++ path)).drop 2 = host ++ path from rfl, htw,
    afterLastAt_of_no_at hhat, stripPort_of_no_colon hhcol]
  simp only
  rw [List.drop_left, takeWhile_all hpc]

theorem splitOnChar_pieces_no_sep (sep : Char) (s : JStr) :
    ∀ w ∈ splitOnChar sep s, ∀ c ∈ w, (c == sep) = false := by
  induction s with
  | nil =>
    intro w hw
    simp only [splitOnChar, List.mem_singleton] at hw
    subst hw
    simp
  | cons c t ih =>
    intro w hw
    simp only [splitOnChar] at hw
    by_cases hc : (c == sep) = true
    · rw [if_pos hc] at hw
      rcases List.mem_cons.mp hw with h | h
      · subst h; simp
      · exact ih w h
    · rw [if_neg hc] at hw
      simp only [Bool.not_eq_true] at hc
      cases hs : splitOnChar sep t with
      | nil => exact absurd hs (splitOnChar_ne_nil sep t)
      | cons w0 ws =>
        rw [hs] at hw
        rcases List.mem_cons.mp hw with h | h
        · subst h
          intro d hd
          rcases List.mem_cons.mp hd with h' | h'
          · subst h'; simpa using hc
          · exact ih w0 (hs ▸ List.mem_cons_self w0 ws) d h'
        · exact ih w (hs ▸ List.mem_cons_of_mem w0 h)

theorem splitOnChar_pieces_subset (sep : Char) (s : JStr) :
    ∀ w ∈ splitOnChar sep s, ∀ c ∈ w, c ∈ s := by
  induction s with
  | nil =>
    intro w hw
    simp only [splitOnChar, List.mem_singleton] at hw
    subst hw
    simp
  | cons c t ih =>
    intro w hw
    simp only [splitOnChar] at hw
    by_cases hc : (c == sep) = true
    · rw [if_pos hc] at hw
      rcases List.mem_cons.mp hw with h | h
      · subst h; simp
      · exact fun d hd => List.mem_cons_of_mem c (ih w h d hd)
    · rw [if_neg hc] at hw
      cases hs : splitOnChar sep t with
      | nil => exact absurd hs (splitOnChar_ne_nil sep t)
      | cons w0 ws =>
        rw [hs] at hw
        rcases List.mem_cons.mp hw with h | h
        · subst h
          intro d hd
          rcases List.mem_cons.mp hd with h' | h'
          · subst h'; exact List.mem_cons_self d t
          · exact List.mem_cons_of_mem c (ih w0 (hs ▸ List.mem_cons_self w0 ws) d h')
        · exact fun d hd => List.mem_cons_of_mem c (ih w (hs ▸ List.mem_cons_of_mem w0 h) d hd)

theorem norm_fix_document (docId : JStr) (h1 : docId ≠ [])
    (h2 : ∀ c ∈ docId, (c == '/') = false) (h3 : ∀ c ∈ docId, notQF c = true)
    (h4 : ∀ c ∈ docId, (c == '\\') = false) :
    normalizeUrlForDedup (S "https://docs.google.com/document/d/" ++ docId) =
      S "https://docs.google.com/document/d/" ++ docId := by
  have hparse : jsParseUrl (S "https://docs.google.com/document/d/" ++ docId) =
      some ⟨S "https", S "docs.google.com", S "/document/d/" ++ docId, true⟩ := by
    show jsParseUrl (S "https" ++ S "://" ++ S "docs.google.com" ++ (S "/document/d/" ++ docId)) = _
    exact jsParseUrl_render_special (by decide) (by decide) (by decide) (by decide) (by decide)
      (by decide) (by decide) (by decide)
      ⟨S "document/d/" ++ docId, rfl⟩
      (by
        intro c hc
        rcases List.mem_append.mp hc with h | h
        · exact (by decide : ∀ x ∈ S "/document/d/", notQF x = true) c h
        · exact h3 c h)
      (by
        intro c hc
        rcases List.mem_append.mp hc with h | h
        · exact (by decide : ∀ x ∈ S "/document/d/", (x == '\\') = false) c h
        · exact h4 c h)
  simp only [normalizeUrlForDedup, hparse, normBody, if_pos (by decide :
    containsSub (jsToLower (S "docs.google.com")) (S "docs.google.com") = true)]
  rw [searchSeg_self (by decide) h1 h2]

theorem norm_fix_spreadsheets (docId : JStr) (h1 : docId ≠ [])
    (h2 : ∀ c ∈ docId, (c == '/') = false) (h3 : ∀ c ∈ docId, notQF c = true)
    (h4 : ∀ c ∈ docId, (c == '\\') = false) :
    normalizeUrlForDedup (S "https://docs.google.com/spreadsheets/d/" ++ docId) =
      S "https://docs.google.com/spreadsheets/d/" ++ docId := by
  have hparse : jsParseUrl (S "https://docs.google.com/spreadsheets/d/" ++ docId) =
      some ⟨S "https", S "docs.google.com", S "/spreadsheets/d/" ++ docId, true⟩ := by
    show jsParseUrl
      (S "https" ++ S "://" ++ S "docs.google.com" ++ (S "/spreadsheets/d/" ++ docId)) = _
    exact jsParseUrl_render_special (by decide) (by decide) (by decide) (by decide) (by decide)
      (by decide) (by decide) (by decide)
      ⟨S "spreadsheets/d/" ++ docId, rfl⟩
      (by
        intro c hc
        rcases List.mem_append.mp hc with h | h
        · exact (by decide : ∀ x ∈ S "/spreadsheets/d/", notQF x = true) c h
        · exact h3 c h)
      (by
        intro c hc
        rcases List.mem_append.mp hc with h | h
        · exact (by decide : ∀ x ∈ S "/spreadsheets/d/", (x == '\\') = false) c h
        · exact h4 c h)
  simp only [normalizeUrlForDedup, hparse, normBody, if_pos (by decide :
    containsSub (jsToLower (S "docs.google.com")) (S "docs.google.com") = true)]
  rw [@searchSeg_none_append (S "/document/d/") (S "/spreadsheets/d/") docId
    (S "/document/d") (by decide) h2 (by decide)]
  rw [searchSeg_self (by decide) h1 h2]

theorem norm_fix_presentation (docId : JStr) (h1 : docId ≠ [])
    (h2 : ∀ c ∈ docId, (c == '/') = false) (h3 : ∀ c ∈ docId, notQF c = true)
    (h4 : ∀ c ∈ docId, (c == '\\') = false) :
    normalizeUrlForDedup (S "https://docs.google.com/presentation/d/" ++ docId) =
      S "https://docs.google.com/presentation/d/" ++ docId := by
  have hparse : jsParseUrl (S "https://docs.google.com/presentation/d/" ++ docId) =
      some ⟨S "https", S "docs.google.com", S "/presentation/d/" ++ docId, true⟩ := by
    show jsParseUrl
      (S "https" ++ S "://" ++ S "docs.google.com" ++ (S "/presentation/d/" ++ docId)) = _
    exact jsParseUrl_render_special (by decide) (by decide) (by decide) (by decide) (by decide)
      (by decide) (by decide) (by decide)
      ⟨S "presentation/d/" ++ docId, rfl⟩
      (by
        intro c hc
        rcases List.mem_append.mp hc with h | h
        · exact (by decide : ∀ x ∈ S "/presentation/d/", notQF x = true) c h
        · exact h3 c h)
      (by
        intro c hc
        rcases List.mem_append.mp hc with h | h
        · exact (by decide : ∀ x ∈ S "/presentation/d/", (x == '\\') = false) c h
        · exact h4 c h)
  simp only [normalizeUrlForDedup, hparse, normBody, if_pos (by decide :
    containsSub (jsToLower (S "docs.google.com")) (S "docs.google.com") = true)]
  rw [@searchSeg_none_append (S "/document/d/") (S "/presentation/d/") docId
    (S "/document/d") (by decide) h2 (by decide)]
  rw [@searchSeg_none_append (S "/spreadsheets/d/") (S "/presentation/d/") docId
    (S "/spreadsheets/d") (by decide) h2 (by decide)]
  rw [searchSeg_self (by decide) h1 h2]

theorem norm_fix_github (p0 p1 : JStr) (h0 : p0 ≠ []) (h1 : p1 ≠ [])
    (hs0 : ∀ c ∈ p0, (c == '/') = false) (hs1 : ∀ c ∈ p1, (c == '/') = false)
    (hq0 : ∀ c ∈ p0, notQF c = true) (hq1 : ∀ c ∈ p1, notQF c = true)
    (hb0 : ∀ c ∈ p0, (c == '\\') = false) (hb1 : ∀ c ∈ p1, (c == '\\') = false) :
    normalizeUrlForDedup (S "https://github.com/" ++ (p0 ++ (S "/" ++ p1))) =
      S "https://github.com/" ++ (p0 ++ (S "/" ++ p1)) := by
  have hparse : jsParseUrl (S "https://github.com/" ++ (p0 ++ (S "/" ++ p1))) =
      some ⟨S "https", S "github.com", S "/" ++ (p0 ++ (S "/" ++ p1)), true⟩ := by
    show jsParseUrl
      (S "https" ++ S "://" ++ S "github.com" ++ (S "/" ++ (p0 ++ (S "/" ++ p1)))) = _
    exact jsParseUrl_render_special (by decide) (by decide) (by decide) (by decide) (by decide)
      (by decide) (by decide) (by decide)
      ⟨p0 ++ (S "/" ++ p1), rfl⟩
      (by
        intro c hc
        rcases List.mem_append.mp hc with h | h
        · exact (by decide : ∀ x ∈ S "/", notQF x = true) c h
        · rcases List.mem_append.mp h with h' | h'
          · exact hq0 c h'
          · rcases List.mem_append.mp h' with h'' | h''
            · exact (by decide : ∀ x ∈ S "/", notQF x = true) c h''
            · exact hq1 c h'')
      (by
        intro c hc
        rcases List.mem_append.mp hc with h | h
        · exact (by decide : ∀ x ∈ S "/", (x == '\\') = false) c h
        · rcases List.mem_append.mp h with h' | h'
          · exact hb0 c h'
          · rcases List.mem_append.mp h' with h'' | h''
            · exact (by decide : ∀ x ∈ S "/", (x == '\\') = false) c h''
            · exact hb1 c h'')
  simp only [normalizeUrlForDedup, hparse, normBody]
  rw [if_neg (by decide : ¬ containsSub (jsToLower (S "github.com")) (S "docs.google.com") = true),
    if_pos (by decide : containsSub (jsToLower (S "github.com")) (S "github.com") = true)]
  have hsplit : splitOnChar '/' (S "/" ++ (p0 ++ (S "/" ++ p1))) = [[], p0, p1] := by
    show splitOnChar '/' ('/' :: (p0 ++ ('/' :: p1))) = [[], p0, p1]
    rw [splitOnChar_sep_cons, splitOnChar_append_sep p1 hs0, splitOnChar_no_sep hs1]
  rw [hsplit]
  have hfil : [([] : JStr), p0, p1].filter (fun p => p ≠ []) = [p0, p1] := by
    simp [List.filter, h0, h1]
  rw [hfil]
  show S "https://github.com/" ++ p0 ++ S "/" ++ p1 =
    S "https://github.com/" ++ (p0 ++ (S "/" ++ p1))
  simp [List.append_assoc]

/-- C6 counterexample: the claim says `normalizeUrlForDedup` is
idempotent for every input string; it is not.  `mailto:x@y.com` has an
opaque path and no hostname, so the generic branch renders
`mailto://x@y.com`; that output re-parses with `x` as (dropped) userinfo
and `y.com` as the hostname, so a second normalization yields
`mailto://y.com`, a different identity. -/
theorem normalize_not_idempotent_cex :
    normalizeUrlForDedup (S "mailto:x@y.com") = S "mailto://x@y.com" ∧
    normalizeUrlForDedup (normalizeUrlForDedup (S "mailto:x@y.com")) = S "mailto://y.com" ∧
    normalizeUrlForDedup (normalizeUrlForDedup (S "mailto:x@y.com")) ≠
      normalizeUrlForDedup (S "mailto:x@y.com") :=
  ⟨by decide, by decide, by decide⟩

/-- C6 (amended).  `normalizeUrlForDedup` is idempotent on every input
that the URL constructor parses with a `//` authority, provided the
parsed path is free of backslashes (for the special schemes the parser
itself turns `\` into `/`, so the proviso only restricts other schemes;
with a backslash a Docs/GitHub identity can genuinely change on
re-normalization because the emitted `https` URL re-parses `\` as a
segment separator).  Unparseable inputs are returned unchanged and are
trivially idempotent; opaque-path inputs are not covered and include
genuine non-idempotent cases (see the counterexample). -/
theorem normalizeUrlForDedup_idem_auth (s : JStr) (u : JsUrl)
    (hp : jsParseUrl s = some u) (ha : u.auth = true)
    (hb : ∀ c ∈ u.path, (c == '\\') = false) :
    normalizeUrlForDedup (normalizeUrlForDedup s) = normalizeUrlForDedup s := by
  obtain ⟨hsOK, hsl, hhe, hcol, hat, hpe, hpc, hspecial⟩ := jsParseUrl_props hp ha
  have hnorm : normalizeUrlForDedup s = normBody u := by
    simp [normalizeUrlForDedup, hp]
  rw [hnorm]
  have huc : (⟨u.scheme, u.host, u.path, true⟩ : JsUrl) = u := by
    obtain ⟨sc, ho, pa, au⟩ := u
    simp only at ha
    rw [ha]
  have hgen : normalizeUrlForDedup (u.scheme ++ S "://" ++ u.host ++ u.path) = normBody u := by
    by_cases hspec : specialScheme u.scheme = true
    · obtain ⟨hh, hhl, hhc, hpx, hpb⟩ := hspecial hspec
      simp only [normalizeUrlForDedup,
        jsParseUrl_render_special hsOK hsl hspec hh hhl hhc hcol hat hpx hpc hpb, huc]
    · simp only [normalizeUrlForDedup,
        jsParseUrl_render_nonspecial hsOK hsl (by simpa using hspec) hhe hcol hat hpe hpc, huc]
  rw [normBody]
  by_cases hdocs : containsSub (jsToLower u.host) (S "docs.google.com") = true
  · rw [if_pos hdocs]
    cases hd1 : searchSeg (S "/document/d/") u.path with
    | some docId =>
      obtain ⟨c1, c2, c3⟩ := searchSeg_props hd1
      exact norm_fix_document docId c1 c2 (fun c hc => hpc c (c3 c hc))
        (fun c hc => hb c (c3 c hc))
    | none =>
      cases hd2 : searchSeg (S "/spreadsheets/d/") u.path with
      | some docId =>
        obtain ⟨c1, c2, c3⟩ := searchSeg_props hd2
        exact norm_fix_spreadsheets docId c1 c2 (fun c hc => hpc c (c3 c hc))
          (fun c hc => hb c (c3 c hc))
      | none =>
        cases hd3 : searchSeg (S "/presentation/d/") u.path with
        | some docId =>
          obtain ⟨c1, c2, c3⟩ := searchSeg_props hd3
          exact norm_fix_presentation docId c1 c2 (fun c hc => hpc c (c3 c hc))
            (fun c hc => hb c (c3 c hc))
        | none =>
          rw [hgen, normBody, if_pos hdocs, hd1, hd2, hd3]
  · rw [if_neg hdocs]
    by_cases hgit : containsSub (jsToLower u.host) (S "github.com") = true
    · rw [if_pos hgit]
      cases hparts : (splitOnChar '/' u.path).filter (fun p => p ≠ []) with
      | nil => rw [hgen, normBody, if_neg hdocs, if_pos hgit, hparts]
      | cons p0 rest =>
        cases rest with
        | nil => rw [hgen, normBody, if_neg hdocs, if_pos hgit, hparts]
        | cons p1 tail =>
          have hmem0 : p0 ∈ (splitOnChar '/' u.path).filter (fun p => p ≠ []) := by
            rw [hparts]; exact List.mem_cons_self _ _
          have hmem1 : p1 ∈ (splitOnChar '/' u.path).filter (fun p => p ≠ []) := by
            rw [hparts]; exact List.mem_cons_of_mem _ (List.mem_cons_self _ _)
          have h0 : p0 ≠ [] := by simpa using List.of_mem_filter hmem0
          have h1 : p1 ≠ [] := by simpa using List.of_mem_filter hmem1
          have hm0 : p0 ∈ splitOnChar '/' u.path := List.mem_of_mem_filter hmem0
          have hm1 : p1 ∈ splitOnChar '/' u.path := List.mem_of_mem_filter hmem1
          have hq0 : ∀ c ∈ p0, notQF c = true := fun c hc =>
            hpc c (splitOnChar_pieces_subset '/' u.path p0 hm0 c hc)
          have hq1 : ∀ c ∈ p1, notQF c = true := fun c hc =>
            hpc c (splitOnChar_pieces_subset '/' u.path p1 hm1 c hc)
          have hb0 : ∀ c ∈ p0, (c == '\\') = false := fun c hc =>
            hb c (splitOnChar_pieces_subset '/' u.path p0 hm0 c hc)
          have hb1 : ∀ c ∈ p1, (c == '\\') = false := fun c hc =>
            hb c (splitOnChar_pieces_subset '/' u.path p1 hm1 c hc)
          have hfix := norm_fix_github p0 p1 h0 h1
            (splitOnChar_pieces_no_sep '/' u.path p0 hm0)
            (splitOnChar_pieces_no_sep '/' u.path p1 hm1) hq0 hq1 hb0 hb1
          have hassoc : S "https://github.com/" ++ p0 ++ S "/" ++ p1 =
              S "https://github.com/" ++ (p0 ++ (S "/" ++ p1)) := by
            simp [List.append_assoc]
          show normalizeUrlForDedup (S "https://github.com/" ++ p0 ++ S "/" ++ p1) =
            S "https://github.com/" ++ p0 ++ S "/" ++ p1
          rw [hassoc, hfix]
    · rw [if_neg hgit]
      rw [hgen, normBody, if_neg hdocs, if_neg hgit]

/-- C6 witness: a parseable authority URL with uppercase letters, a
userinfo, a port, extra path segments, a query and a fragment is
normalized idempotently. -/
theorem normalizeUrlForDedup_idem_auth_witness :
    jsParseUrl (S "https://User@docs.google.com:443/document/d/Abc/edit?x=1#f") =
      some ⟨S "https", S "docs.google.com", S "/document/d/Abc/edit", true⟩ ∧
    normalizeUrlForDedup (normalizeUrlForDedup
        (S "https://User@docs.google.com:443/document/d/Abc/edit?x=1#f")) =
      normalizeUrlForDedup (S "https://User@docs.google.com:443/document/d/Abc/edit?x=1#f") :=
  ⟨by decide,
    normalizeUrlForDedup_idem_auth _
      ⟨S "https", S "docs.google.com", S "/document/d/Abc/edit", true⟩
      (by decide) (by decide) (by decide)⟩

/-! ### Claim C7: Docs identity uses a fixed scheme and host -/

/-- C7 counterexample: for a parseable Docs URL with scheme `http`, the
normalizer does not keep the input's scheme (it forces
`https://docs.google.com/...`), so the claimed identity equality at the
input's `scheme://host/collection/ID` fails. -/
theorem normalize_docs_scheme_cex :
    normalizeUrlForDedup (S "http://docs.google.com/document/d/abc/edit") =
      S "https://docs.google.com/document/d/abc" ∧
    S "https://docs.google.com/document/d/abc" ≠ S "http://docs.google.com/document/d/abc" :=
  ⟨by decide, by decide⟩

/-- C7 (amended).  For every parseable URL whose host contains the
document-hosting domain and whose path contains one of the collection/ID
shapes, the normalizer reduces the identity to
`https://docs.google.com/<collection>/d/<ID>` — with the fixed scheme
`https` and fixed host `docs.google.com`, not the input's scheme and
host — discarding all other path segments, the query and the fragment;
the collection shapes are tried in the order document, spreadsheets,
presentation. -/
theorem normalize_docs_amended (s : JStr) (u : JsUrl) (hp : jsParseUrl s = some u)
    (hdocs : containsSub (jsToLower u.host) (S "docs.google.com") = true) :
    (∀ docId, searchSeg (S "/document/d/") u.path = some docId →
      normalizeUrlForDedup s = S "https://docs.google.com/document/d/" ++ docId) ∧
    (searchSeg (S "/document/d/") u.path = none →
      ∀ docId, searchSeg (S "/spreadsheets/d/") u.path = some docId →
        normalizeUrlForDedup s = S "https://docs.google.com/spreadsheets/d/" ++ docId) ∧
    (searchSeg (S "/document/d/") u.path = none →
      searchSeg (S "/spreadsheets/d/") u.path = none →
      ∀ docId, searchSeg (S "/presentation/d/") u.path = some docId →
        normalizeUrlForDedup s = S "https://docs.google.com/presentation/d/" ++ docId) := by
  refine ⟨?_, ?_, ?_⟩
  · intro docId hd
    simp [normalizeUrlForDedup, hp, normBody, hdocs, hd]
  · intro h1 docId hd
    simp [normalizeUrlForDedup, hp, normBody, hdocs, h1, hd]
  · intro h1 h2 docId hd
    simp [normalizeUrlForDedup, hp, normBody, hdocs, h1, h2, hd]

/-- C7 witness: a spreadsheets URL with scheme `http`, extra path
segments, and a fragment reduces to the canonical `https` identity. -/
theorem normalize_docs_amended_witness :
    normalizeUrlForDedup (S "http://docs.google.com/spreadsheets/d/XYZ/edit#gid=0") =
      S "https://docs.google.com/spreadsheets/d/XYZ" :=
  (normalize_docs_amended (S "http://docs.google.com/spreadsheets/d/XYZ/edit#gid=0")
      ⟨S "http", S "docs.google.com", S "/spreadsheets/d/XYZ/edit", true⟩ (by decide)
      (by decide)).2.1 (by decide) (S "XYZ") (by decide)

/-! ### Affinity graph: `recordCoOccurrence` and `calculateClusterBoost` -/

/-- Adjacency map of one node: identity → observation count (a JS object). -/
abbrev EdgeMap := List (JStr × Nat)

/-- The co-occurrence store `coOccurrenceData`: identity → adjacency map
(a JS object of objects, modelled as an association list with unique
keys looked up first-match). -/
abbrev Graph := List (JStr × EdgeMap)

/-- JS property lookup `obj[k]` (first matching key). -/
def getA {β : Type} : List (JStr × β) → JStr → Option β
  | [], _ => none
  | (k, v) :: rest, key => if k = key then some v else getA rest key

/-- JS property assignment `obj[k] = v` (replace in place, else append:
property insertion order). -/
def setA {β : Type} : List (JStr × β) → JStr → β → List (JStr × β)
  | [], key, v => [(key, v)]
  | (k, w) :: rest, key, v =>
    if k = key then (key, v) :: rest else (k, w) :: setA rest key v

/-- `if (!coOccurrenceData[k]) coOccurrenceData[k] = {}` (lines 756, 762). -/
def ensureNode (g : Graph) (k : JStr) : Graph :=
  match getA g k with
  | some _ => g
  | none => setA g k []

/-- `coOccurrenceData[a][b] = (coOccurrenceData[a][b] || 0) + 1`
(lines 767-768); the node `a` has always been ensured before this runs. -/
def bumpEdge (g : Graph) (a b : JStr) : Graph :=
  let adj := (getA g a).getD []
  setA g a (setA adj b ((getA adj b).getD 0 + 1))

/-- Inner loop over `j = i+1 .. n-1` (lines 760-769). -/
def recordPairsInner (u1 : JStr) : List JStr → Graph → Graph
  | [], g => g
  | u2 :: rest, g =>
    recordPairsInner u1 rest (bumpEdge (bumpEdge (ensureNode g u2) u1 u2) u2 u1)

/-- Outer loop over `i` (lines 754-770). -/
def recordPairs : List JStr → Graph → Graph
  | [], g => g
  | u1 :: rest, g => recordPairs rest (recordPairsInner u1 rest (ensureNode g u1))

/-- `recordCoOccurrence` (part_000 lines 745-777): normalize the URLs,
drop empties, then record all unordered pairs symmetrically.  The
debounced persistence (lines 772-776) is I/O and not modelled; the
`!coOccurrenceData` early return cannot fire once the store is loaded. -/
def recordCoOccurrence (urls : List JStr) (g : Graph) : Graph :=
  recordPairs ((urls.map normalizeUrlForDedup).filter (fun u => u ≠ [])) g

/-- Edge count from `a` to `b`, when present. -/
def edge (g : Graph) (a b : JStr) : Option Nat := getA ((getA g a).getD []) b

/-- `CLUSTER_BOOST_BASE` (line 727). -/
def CLUSTER_BOOST_BASE : ℚ := 50

/-- `calculateClusterBoost` (part_000 lines 795-832). -/
def calculateClusterBoost (g : Graph) (suggestionUrl : JStr) (openUrls : List JStr) : ℚ :=
  if openUrls = [] then 0
  else
    match getA g (normalizeUrlForDedup suggestionUrl) with
    | none => 0
    | some coOccurringUrls =>
      if coOccurringUrls = [] then 0
      else
        let totalFrequency := (coOccurringUrls.map Prod.snd).sum
        let openEntries := coOccurringUrls.filter (fun e => openUrls.elem e.1)
        let openFrequency := (openEntries.map Prod.snd).sum
        if openEntries = [] then 0
        else
          let clusterSize := coOccurringUrls.length
          let rOpen : ℚ := (openEntries.length : ℚ) / (clusterSize : ℚ)
          let wFreq : ℚ :=
            if 0 < totalFrequency then (openFrequency : ℚ) / (totalFrequency : ℚ) else 0
          rOpen * wFreq * CLUSTER_BOOST_BASE

/-- Well-formedness of the modelled JS object: keys are unique at both
levels (guaranteed for every graph built through `setA`). -/
def WFGraph (g : Graph) : Prop :=
  (g.map Prod.fst).Nodup ∧ ∀ p ∈ g, (p.2.map Prod.fst).Nodup

instance : DecidablePred WFGraph := fun g => by
  unfold WFGraph
  infer_instance

/-! ### Claim C3: the cluster-boost formula -/

theorem getA_mem {β : Type} {l : List (JStr × β)} {k : JStr} {v : β}
    (h : getA l k = some v) : (k, v) ∈ l := by
  induction l with
  | nil => simp [getA] at h
  | cons p rest ih =>
    obtain ⟨k', v'⟩ := p
    simp only [getA] at h
    by_cases hk : k' = k
    · rw [if_pos hk] at h
      rw [Option.some.injEq] at h
      subst h
      subst hk
      exact List.mem_cons_self _ _
    · rw [if_neg hk] at h
      exact List.mem_cons_of_mem _ (ih h)

theorem sum_filter_le (p : JStr × Nat → Bool) (l : EdgeMap) :
    ((l.filter p).map Prod.snd).sum ≤ (l.map Prod.snd).sum := by
  induction l with
  | nil => simp
  | cons e es ih =>
    rw [List.filter_cons]
    by_cases hp : p e = true
    · simpa [hp] using ih
    · simp only [hp, Bool.false_eq_true, if_false, List.map_cons, List.sum_cons]
      exact le_trans ih (Nat.le_add_left _ _)

/-- C3.  `calculateClusterBoost` returns 0 when the active set is empty,
when the candidate's identity has no recorded adjacency, or when none of
its edges point to an active identity; otherwise it returns
`openRatio * frequencyWeight * 50` with `openRatio` the fraction of the
candidate's distinct co-observed identities that are active and
`frequencyWeight` the fraction of edge mass toward active identities. -/
theorem calculateClusterBoost_spec (g : Graph) (cand : JStr) (openUrls : List JStr)
    (hWF : WFGraph g) :
    (openUrls = [] → calculateClusterBoost g cand openUrls = 0) ∧
    (getA g (normalizeUrlForDedup cand) = none → calculateClusterBoost g cand openUrls = 0) ∧
    (∀ edges, getA g (normalizeUrlForDedup cand) = some edges →
      edges.filter (fun e => openUrls.elem e.1) = [] →
      calculateClusterBoost g cand openUrls = 0) ∧
    (∀ edges, getA g (normalizeUrlForDedup cand) = some edges →
      openUrls ≠ [] → edges.filter (fun e => openUrls.elem e.1) ≠ [] →
      calculateClusterBoost g cand openUrls =
        (((edges.map Prod.fst).dedup.filter (fun k => openUrls.elem k)).length : ℚ) /
          ((edges.map Prod.fst).dedup.length : ℚ) *
        ((((edges.filter (fun e => openUrls.elem e.1)).map Prod.snd).sum : ℚ) /
          ((edges.map Prod.snd).sum : ℚ)) * 50) := by
  refine ⟨?_, ?_, ?_, ?_⟩
  · intro h
    simp [calculateClusterBoost, h]
  · intro h
    by_cases ho : openUrls = []
    · simp [calculateClusterBoost, ho]
    · simp [calculateClusterBoost, ho, h]
  · intro edges he hfil
    by_cases ho : openUrls = []
    · simp [calculateClusterBoost, ho]
    · by_cases hedges : edges = []
      · simp [calculateClusterBoost, ho, he, hedges]
      · simp only [calculateClusterBoost, if_neg ho, he, if_neg hedges]
        rw [hfil]
        simp
  · intro edges he hne hfil
    have hnodup : (edges.map Prod.fst).Nodup := hWF.2 _ (getA_mem he)
    have hded : (edges.map Prod.fst).dedup = edges.map Prod.fst := List.Nodup.dedup hnodup
    have hedges_ne : edges ≠ [] := by
      intro h'
      subst h'
      simp at hfil
    have hflen : ((edges.map Prod.fst).filter (fun k => openUrls.elem k)).length =
        (edges.filter (fun e => openUrls.elem e.1)).length := by
      rw [List.filter_map]
      simp [Function.comp_def]
    by_cases htf : 0 < (edges.map Prod.snd).sum
    · simp only [calculateClusterBoost, hne, if_neg hne, he, hedges_ne, hfil, htf, if_true,
        hded, hflen, CLUSTER_BOOST_BASE]
      simp [hfil, hedges_ne, htf]
    · have h0 : (edges.map Prod.snd).sum = 0 := Nat.eq_zero_of_not_pos htf
      have hof : ((edges.filter (fun e => openUrls.elem e.1)).map Prod.snd).sum = 0 :=
        Nat.le_zero.mp (h0 ▸ sum_filter_le _ edges)
      simp only [calculateClusterBoost, if_neg hne, he, CLUSTER_BOOST_BASE]
      simp [hedges_ne, hfil, htf, h0, hof]

/-- C3 witness: a candidate with edges `a ↦ 8, b ↦ 2` and active set
`{a}` gets boost `(1/2) * (8/10) * 50 = 20`; the candidate URL is given
in a non-canonical form to exercise the internal normalization. -/
theorem calculateClusterBoost_spec_witness :
    calculateClusterBoost [(S "https://github.com/o/r", [(S "a", 8), (S "b", 2)])]
      (S "https://github.com/o/r/issues/1") [S "a"] = 20 := by
  have h := (calculateClusterBoost_spec
    [(S "https://github.com/o/r", [(S "a", 8), (S "b", 2)])]
    (S "https://github.com/o/r/issues/1") [S "a"] (by decide)).2.2.2
    [(S "a", 8), (S "b", 2)] (by decide) (by decide) (by decide)
  rw [h]
  with_unfolding_all decide

/-! ### Claim C8: the affinity graph stays symmetric -/

theorem getA_setA {β : Type} (l : List (JStr × β)) (k : JStr) (v : β) (k' : JStr) :
    getA (setA l k v) k' = if k = k' then some v else getA l k' := by
  induction l with
  | nil => simp [setA, getA]
  | cons p rest ih =>
    obtain ⟨k0, v0⟩ := p
    simp only [setA]
    by_cases h0 : k0 = k
    · subst h0
      rw [if_pos rfl]
      simp only [getA, ih]
      by_cases h1 : k0 = k'
      · simp [h1]
      · simp [h1]
    · rw [if_neg h0]
      simp only [getA, ih]
      by_cases h1 : k0 = k'
      · subst h1
        simp [show ¬k = k0 from fun he => h0 he.symm]
      · simp [h1]

theorem edge_bumpEdge (g : Graph) (a b x y : JStr) :
    edge (bumpEdge g a b) x y =
      if a = x ∧ b = y then some ((edge g a b).getD 0 + 1) else edge g x y := by
  unfold edge bumpEdge
  simp only [getA_setA]
  by_cases hx : a = x
  · rw [if_pos hx]
    simp only [Option.getD_some]
    rw [getA_setA]
    by_cases hy : b = y
    · rw [if_pos hy, if_pos ⟨hx, hy⟩]
    · rw [if_neg hy, if_neg (by tauto)]
      subst hx
      rfl
  · rw [if_neg hx, if_neg (by tauto)]

theorem edge_ensureNode (g : Graph) (k x y : JStr) :
    edge (ensureNode g k) x y = edge g x y := by
  unfold ensureNode
  cases h : getA g k with
  | some v => rfl
  | none =>
    unfold edge
    rw [getA_setA]
    by_cases hk : k = x
    · rw [if_pos hk]
      subst hk
      rw [h]
      rfl
    · rw [if_neg hk]

/-- Symmetry of the adjacency store (entry existence and value). -/
def SymG (g : Graph) : Prop := ∀ a b, edge g a b = edge g b a

theorem symG_bump_pair {g : Graph} (h : SymG g) (a b : JStr) :
    SymG (bumpEdge (bumpEdge g a b) b a) := by
  intro x y
  have hxy := h x y
  have hab := h a b
  simp only [edge_bumpEdge]
  split_ifs <;> (try casesm* _ ∧ _) <;> subst_vars <;> simp_all

theorem symG_ensureNode {g : Graph} (h : SymG g) (k : JStr) : SymG (ensureNode g k) := by
  intro x y
  rw [edge_ensureNode, edge_ensureNode]
  exact h x y

theorem symG_recordPairsInner {g : Graph} (h : SymG g) (u1 : JStr) (us : List JStr) :
    SymG (recordPairsInner u1 us g) := by
  induction us generalizing g with
  | nil => exact h
  | cons u2 rest ih =>
    exact ih (symG_bump_pair (symG_ensureNode h u2) u1 u2)

theorem symG_recordPairs {g : Graph} (h : SymG g) (us : List JStr) :
    SymG (recordPairs us g) := by
  induction us generalizing g with
  | nil => exact h
  | cons u1 rest ih =>
    exact ih (symG_recordPairsInner (symG_ensureNode h u1) u1 rest)

theorem symG_recordCoOccurrence {g : Graph} (h : SymG g) (urls : List JStr) :
    SymG (recordCoOccurrence urls g) :=
  symG_recordPairs h _

/-- C8.  Starting from the empty graph, after any sequence of
`recordCoOccurrence` observations, whenever an edge count exists from
`a` to `b` it equals the count from `b` to `a`. -/
theorem recordCoOccurrence_symmetric (obs : List (List JStr)) (a b : JStr) (n : Nat)
    (h : edge (obs.foldl (fun g urls => recordCoOccurrence urls g) []) a b = some n) :
    edge (obs.foldl (fun g urls => recordCoOccurrence urls g) []) b a = some n := by
  have hstep : ∀ (l : List (List JStr)) (g : Graph), SymG g →
      SymG (l.foldl (fun g urls => recordCoOccurrence urls g) g) := by
    intro l
    induction l with
    | nil => exact fun g hg => hg
    | cons o rest ih =>
      intro g hg
      exact ih _ (symG_recordCoOccurrence hg o)
  have hsym := hstep obs [] (fun a b => rfl)
  rw [← hsym a b]
  exact h

/-- C8 witness: one observation of `{u1, u2}` gives a symmetric edge of
count 1 in both directions. -/
theorem recordCoOccurrence_symmetric_witness :
    edge ([[S "u1", S "u2"]].foldl (fun g urls => recordCoOccurrence urls g) [])
        (S "u1") (S "u2") = some 1 ∧
    edge ([[S "u1", S "u2"]].foldl (fun g urls => recordCoOccurrence urls g) [])
        (S "u2") (S "u1") = some 1 :=
  ⟨by decide,
    recordCoOccurrence_symmetric [[S "u1", S "u2"]] (S "u1") (S "u2") 1 (by decide)⟩

/-! ### Claim C9: observe with fewer than 2 identities -/

theorem setA_of_getA_none {β : Type} {l : List (JStr × β)} {k : JStr} (v : β)
    (h : getA l k = none) : setA l k v = l ++ [(k, v)] := by
  induction l with
  | nil => rfl
  | cons p rest ih =>
    obtain ⟨k0, v0⟩ := p
    simp only [getA] at h
    by_cases h0 : k0 = k
    · rw [if_pos h0] at h
      simp at h
    · rw [if_neg h0] at h
      simp only [setA, if_neg h0, List.cons_append]
      rw [ih h]

/-- C9 counterexample: the claim says a single-identity observation
leaves the graph completely unchanged ("no node entry added"), but
`recordCoOccurrence` with one identity creates an (empty) node entry. -/
theorem recordCoOccurrence_single_cex :
    recordCoOccurrence [S "x"] ([] : Graph) ≠ ([] : Graph) := by decide

/-- C9 (amended).  `recordCoOccurrence` with an empty collection is a
no-op; with a single identity it modifies no edge count (every pairwise
count is unchanged) and at most ensures a node entry: the result is
either the unchanged graph, or the graph with one appended empty
adjacency entry for the identity. -/
theorem recordCoOccurrence_small_amended (g : Graph) (u : JStr) :
    recordCoOccurrence [] g = g ∧
    (∀ a b, edge (recordCoOccurrence [u] g) a b = edge g a b) ∧
    (recordCoOccurrence [u] g = g ∨
      recordCoOccurrence [u] g = g ++ [(normalizeUrlForDedup u, [])]) := by
  refine ⟨rfl, ?_, ?_⟩
  · intro a b
    show edge (recordPairs (([u].map normalizeUrlForDedup).filter (fun s => s ≠ [])) g) a b = _
    by_cases hn : normalizeUrlForDedup u = []
    · simp [hn, recordPairs]
    · have hfil : ([u].map normalizeUrlForDedup).filter (fun s => s ≠ []) =
          [normalizeUrlForDedup u] := by
        simp [hn]
      rw [hfil]
      show edge (ensureNode g (normalizeUrlForDedup u)) a b = _
      exact edge_ensureNode g _ a b
  · by_cases hn : normalizeUrlForDedup u = []
    · left
      show recordPairs (([u].map normalizeUrlForDedup).filter (fun s => s ≠ [])) g = g
      simp [hn, recordPairs]
    · have hfil : ([u].map normalizeUrlForDedup).filter (fun s => s ≠ []) =
          [normalizeUrlForDedup u] := by
        simp [hn]
      have heq : recordCoOccurrence [u] g = ensureNode g (normalizeUrlForDedup u) := by
        show recordPairs (([u].map normalizeUrlForDedup).filter (fun s => s ≠ [])) g = _
        rw [hfil]
        rfl
      rw [heq]
      unfold ensureNode
      cases hg : getA g (normalizeUrlForDedup u) with
      | some v => exact Or.inl rfl
      | none => exact Or.inr (setA_of_getA_none [] hg)

/-! ### Omnibox ranking pipeline (part_000 lines 530-601) -/

/-- A JS number as it occurs in the combined pipeline score:
`-Infinity`, or a finite value. -/
inductive JSNum where
  | negInf : JSNum
  | fin : ℚ → JSNum
deriving DecidableEq

/-- Numeric reading of a scorer result at the `textScore + clusterBoost`
site (line 552): the `-9999` sentinel is the number `-9999` there. -/
def FScore.toNum : FScore → JSNum
  | .noQuery => .fin (-9999)
  | .negInf => .negInf
  | .val x => .fin x

/-- JS addition of a finite boost (`-Infinity + finite = -Infinity`). -/
def jsAdd : JSNum → ℚ → JSNum
  | .negInf, _ => .negInf
  | .fin a, b => .fin (a + b)

/-- `a <= b` on the JS numbers occurring here. -/
def jsLe : JSNum → JSNum → Bool
  | .negInf, _ => true
  | .fin _, .negInf => false
  | .fin a, .fin b => decide (a ≤ b)

/-- `MATCH_QUALITY_THRESHOLD` (line 84). -/
def MATCH_QUALITY_THRESHOLD : ℚ := -15

/-- The quick pre-filter (lines 534-539): keep items whose lowercased
`"title url"` contains the query's first character. -/
def preFilter (q : JStr) (idx : List Item) : List Item :=
  match q with
  | [] => idx
  | c :: _ =>
    idx.filter (fun item => (jsToLower (item.title ++ [' '] ++ item.url)).contains c)

/-- `textScore + clusterBoost` (lines 546-552). -/
def scoreItem (g : Graph) (openUrls : List JStr) (q : JStr) (item : Item) : JSNum :=
  jsAdd (calculateWeightedTextScore q item).toNum (calculateClusterBoost g item.url openUrls)

/-- Score and keep finite scores (lines 546-553:
`.filter(x => x.score !== -Infinity)`). -/
def scoredList (g : Graph) (openUrls : List JStr) (text : JStr) (idx : List Item) :
    List (Item × JSNum) :=
  let q := jsTrim (jsToLower text)
  ((preFilter q idx).map (fun item => (item, scoreItem g openUrls q item))).filter
    (fun x => x.2 ≠ JSNum.negInf)

/-- Stable insertion for the descending sort. -/
def insertDesc (x : Item × JSNum) : List (Item × JSNum) → List (Item × JSNum)
  | [] => [x]
  | y :: ys => if !jsLe x.2 y.2 then x :: y :: ys else y :: insertDesc x ys

/-- `scored.sort((a, b) => b.score - a.score)` (line 555): a stable sort
descending by score, modelled as insertion sort. -/
def sortScored (l : List (Item × JSNum)) : List (Item × JSNum) :=
  l.foldr insertDesc []

/-- The dedup walk of lines 558-566, carrying the `seenUrls` set. -/
def dedupGo : List JStr → List (Item × JSNum) → List (Item × JSNum)
  | _, [] => []
  | seen, x :: xs =>
    if seen.elem (normalizeUrlForDedup x.1.url) then dedupGo seen xs
    else x :: dedupGo (normalizeUrlForDedup x.1.url :: seen) xs

/-- Deduplicate by normalized URL, keeping first occurrences. -/
def dedupScored (l : List (Item × JSNum)) : List (Item × JSNum) := dedupGo [] l

/-- `uniqueScored` (lines 558-566). -/
def uniqueScoredList (g : Graph) (openUrls : List JStr) (text : JStr) (idx : List Item) :
    List (Item × JSNum) :=
  dedupScored (sortScored (scoredList g openUrls text idx))

/-- The Docs/GitHub portion of the suggestion list (lines 570-588): when
slots remain and the best candidate reaches the quality threshold, emit
the top slice; otherwise emit nothing (the caller then falls through to
the generic web-search suggestion). -/
def omniboxDocsResults (g : Graph) (openUrls : List JStr) (text : JStr) (idx : List Item)
    (slots : Nat) : List Item :=
  match uniqueScoredList g openUrls text idx with
  | [] => []
  | best :: rest =>
    if 0 < slots ∧ jsLe (JSNum.fin MATCH_QUALITY_THRESHOLD) best.2 = true then
      ((best :: rest).take slots).map Prod.fst
    else []

/-- Reference transcription for claim C5 (spec §4.5 step 4): walk the
list, keep only the first occurrence of each normalized identity. -/
def keepFirstById : List (Item × JSNum) → List (Item × JSNum)
  | [] => []
  | x :: xs =>
    x :: keepFirstById (xs.filter
      (fun y => normalizeUrlForDedup y.1.url ≠ normalizeUrlForDedup x.1.url))
termination_by l => l.length
decreasing_by
  simp only [List.length_cons]
  exact Nat.lt_succ_of_le (List.length_filter_le _ _)

/-! ### Claim C4: the quality-threshold gate -/

/-- C4.  After scoring, sorting and deduplication, the −15 gate is
evaluated once against the best remaining candidate: if the best score
is below the threshold the pipeline returns the empty result; if it is
at or above the threshold the top slice is returned whole, with no
per-item gating of the lower-scored survivors. -/
theorem threshold_gate_spec (g : Graph) (openUrls : List JStr) (text : JStr)
    (idx : List Item) (slots : Nat) (best : Item × JSNum) (rest : List (Item × JSNum))
    (hus : uniqueScoredList g openUrls text idx = best :: rest) :
    (jsLe (JSNum.fin MATCH_QUALITY_THRESHOLD) best.2 = false →
      omniboxDocsResults g openUrls text idx slots = []) ∧
    (0 < slots → jsLe (JSNum.fin MATCH_QUALITY_THRESHOLD) best.2 = true →
      omniboxDocsResults g openUrls text idx slots =
        ((best :: rest).take slots).map Prod.fst) := by
  constructor
  · intro hlt
    simp [omniboxDocsResults, hus, hlt]
  · intro hslots hge
    simp [omniboxDocsResults, hus, hslots, hge]

/-- C4 witness: a single item scoring `-0.0045 ≥ -15` survives the gate
and is returned. -/
theorem threshold_gate_spec_witness :
    uniqueScoredList [] [] (S "abc") [⟨S "abc", S "u", S "", S "", S ""⟩] =
      [(⟨S "abc", S "u", S "", S "", S ""⟩, JSNum.fin (-0.0045))] ∧
    omniboxDocsResults [] [] (S "abc") [⟨S "abc", S "u", S "", S "", S ""⟩] 6 =
      [⟨S "abc", S "u", S "", S "", S ""⟩] := by
  have hus : uniqueScoredList [] [] (S "abc") [⟨S "abc", S "u", S "", S "", S ""⟩] =
      [(⟨S "abc", S "u", S "", S "", S ""⟩, JSNum.fin (-0.0045))] := by
    with_unfolding_all decide
  refine ⟨hus, ?_⟩
  have h := (threshold_gate_spec [] [] (S "abc") [⟨S "abc", S "u", S "", S "", S ""⟩] 6
    (⟨S "abc", S "u", S "", S "", S ""⟩, JSNum.fin (-0.0045)) [] hus).2
    (by decide) (by with_unfolding_all decide)
  rw [h]
  rfl

/-! ### Claim C5: deduplication keeps the first (highest-scored) occurrence -/

theorem jsLe_refl (a : JSNum) : jsLe a a = true := by
  cases a with
  | negInf => rfl
  | fin x => simp [jsLe]

theorem dedupGo_eq_keepFirst (seen : List JStr) (l : List (Item × JSNum)) :
    dedupGo seen l =
      keepFirstById (l.filter
        (fun y => !seen.elem (normalizeUrlForDedup y.1.url))) := by
  induction l generalizing seen with
  | nil => simp [dedupGo, keepFirstById]
  | cons x xs ih =>
    simp only [dedupGo, List.filter_cons]
    by_cases hx : seen.elem (normalizeUrlForDedup x.1.url) = true
    · simp only [hx, if_true, Bool.not_true, Bool.false_eq_true, if_false]
      exact ih seen
    · simp only [hx, Bool.false_eq_true, if_false, Bool.not_false, if_true]
      rw [keepFirstById, ih (normalizeUrlForDedup x.1.url :: seen)]
      congr 1
      apply congrArg keepFirstById
      rw [List.filter_filter]
      apply List.filter_congr
      intro y hy
      by_cases h1 : normalizeUrlForDedup y.1.url = normalizeUrlForDedup x.1.url
      · simp [List.elem_eq_mem, List.mem_cons, h1]
      · simp [List.elem_eq_mem, List.mem_cons, h1]

theorem mem_dedupGo {seen : List JStr} {l : List (Item × JSNum)} {x : Item × JSNum}
    (h : x ∈ dedupGo seen l) :
    x ∈ l ∧ seen.elem (normalizeUrlForDedup x.1.url) = false := by
  induction l generalizing seen with
  | nil => simp [dedupGo] at h
  | cons z zs ih =>
    simp only [dedupGo] at h
    by_cases hz : seen.elem (normalizeUrlForDedup z.1.url) = true
    · rw [if_pos hz] at h
      obtain ⟨h1, h2⟩ := ih h
      exact ⟨List.mem_cons_of_mem z h1, h2⟩
    · rw [if_neg hz] at h
      rcases List.mem_cons.mp h with he | hm
      · subst he
        simpa using hz
      · obtain ⟨h1, h2⟩ := ih hm
        refine ⟨List.mem_cons_of_mem z h1, ?_⟩
        simp only [List.elem_eq_mem, List.mem_cons, decide_eq_false_iff_not, not_or] at h2
        simp only [List.elem_eq_mem, decide_eq_false_iff_not]
        exact h2.2

theorem dedupGo_max (seen : List JStr) (l : List (Item × JSNum))
    (hs : l.Pairwise (fun a b => jsLe b.2 a.2 = true)) :
    ∀ x ∈ dedupGo seen l, ∀ y ∈ l,
      normalizeUrlForDedup y.1.url = normalizeUrlForDedup x.1.url →
      jsLe y.2 x.2 = true := by
  induction l generalizing seen with
  | nil => simp [dedupGo]
  | cons z zs ih =>
    rw [List.pairwise_cons] at hs
    obtain ⟨hz, hzs⟩ := hs
    intro x hx y hy hid
    simp only [dedupGo] at hx
    by_cases he : seen.elem (normalizeUrlForDedup z.1.url) = true
    · rw [if_pos he] at hx
      rcases List.mem_cons.mp hy with hey | hmy
      · subst hey
        have h2 := (mem_dedupGo hx).2
        rw [← hid] at h2
        rw [he] at h2
        simp at h2
      · exact ih seen hzs x hx y hmy hid
    · rw [if_neg he] at hx
      rcases List.mem_cons.mp hx with hex | hmx
      · subst hex
        rcases List.mem_cons.mp hy with hey | hmy
        · subst hey
          exact jsLe_refl _
        · exact hz y hmy
      · rcases List.mem_cons.mp hy with hey | hmy
        · subst hey
          have h2 := (mem_dedupGo hmx).2
          simp only [List.elem_eq_mem, List.mem_cons, decide_eq_false_iff_not, not_or] at h2
          exact absurd hid.symm h2.1
        · exact ih _ hzs x hmx y hmy hid

/-- C5.  On a list sorted descending by combined score, the dedup walk
keeps exactly the first occurrence of each normalized identity — which
is a highest-scored item of that identity — and discards every later
item whose URL normalizes to the same identity. -/
theorem dedupScored_spec (l : List (Item × JSNum))
    (hsorted : l.Pairwise (fun a b => jsLe b.2 a.2 = true)) :
    dedupScored l = keepFirstById l ∧
    ∀ x ∈ dedupScored l, ∀ y ∈ l,
      normalizeUrlForDedup y.1.url = normalizeUrlForDedup x.1.url →
      jsLe y.2 x.2 = true := by
  constructor
  · rw [dedupScored, dedupGo_eq_keepFirst]
    congr 1
    simp
  · exact dedupGo_max [] l hsorted

/-- C5 witness: two items whose URLs normalize to the same GitHub repo
identity, sorted descending; the dedup walk keeps the first (higher
scored) one. -/
theorem dedupScored_spec_witness :
    ([((⟨S "A", S "https://github.com/o/r", S "", S "", S ""⟩ : Item), JSNum.fin 0),
      ((⟨S "B", S "https://github.com/o/r/issues", S "", S "", S ""⟩ : Item),
        JSNum.fin (-1))].Pairwise (fun a b => jsLe b.2 a.2 = true)) ∧
    (dedupScored
        [((⟨S "A", S "https://github.com/o/r", S "", S "", S ""⟩ : Item), JSNum.fin 0),
         ((⟨S "B", S "https://github.com/o/r/issues", S "", S "", S ""⟩ : Item),
           JSNum.fin (-1))] =
      keepFirstById
        [((⟨S "A", S "https://github.com/o/r", S "", S "", S ""⟩ : Item), JSNum.fin 0),
         ((⟨S "B", S "https://github.com/o/r/issues", S "", S "", S ""⟩ : Item),
           JSNum.fin (-1))] ∧
     ∀ x ∈ dedupScored
        [((⟨S "A", S "https://github.com/o/r", S "", S "", S ""⟩ : Item), JSNum.fin 0),
         ((⟨S "B", S "https://github.com/o/r/issues", S "", S "", S ""⟩ : Item),
           JSNum.fin (-1))],
       ∀ y ∈ [((⟨S "A", S "https://github.com/o/r", S "", S "", S ""⟩ : Item), JSNum.fin 0),
         ((⟨S "B", S "https://github.com/o/r/issues", S "", S "", S ""⟩ : Item),
           JSNum.fin (-1))],
         normalizeUrlForDedup y.1.url = normalizeUrlForDedup x.1.url →
         jsLe y.2 x.2 = true) :=
  ⟨by decide, dedupScored_spec _ (by decide)⟩

/-! ### Claim C10: empty queries yield empty results -/

theorem calculateClusterBoost_le_50 (g : Graph) (url : JStr) (openUrls : List JStr) :
    calculateClusterBoost g url openUrls ≤ 50 := by
  unfold calculateClusterBoost
  by_cases ho : openUrls = []
  · simp [ho]
  · rw [if_neg ho]
    cases hg : getA g (normalizeUrlForDedup url) with
    | none => norm_num
    | some edges =>
      dsimp only
      by_cases he : edges = []
      · simp [he]
      · rw [if_neg he]
        by_cases hoe : edges.filter (fun e => openUrls.elem e.1) = []
        · rw [if_pos hoe]
          norm_num
        · rw [if_neg hoe]
          have hlenpos : (0 : ℚ) < (edges.length : ℚ) := by
            have := List.length_pos.mpr he
            exact_mod_cast this
          have h1 : ((edges.filter (fun e => openUrls.elem e.1)).length : ℚ) /
              (edges.length : ℚ) ≤ 1 := by
            rw [div_le_one hlenpos]
            exact_mod_cast List.length_filter_le _ _
          have h2 : (0 : ℚ) ≤ ((edges.filter (fun e => openUrls.elem e.1)).length : ℚ) /
              (edges.length : ℚ) :=
            div_nonneg (by positivity) (by positivity)
          by_cases htf : 0 < (edges.map Prod.snd).sum
          · rw [if_pos htf]
            have htfq : (0 : ℚ) < ((edges.map Prod.snd).sum : ℚ) := by exact_mod_cast htf
            have h3 : (((edges.filter (fun e => openUrls.elem e.1)).map Prod.snd).sum : ℚ) /
                ((edges.map Prod.snd).sum : ℚ) ≤ 1 := by
              rw [div_le_one htfq]
              exact_mod_cast sum_filter_le _ edges
            have h4 : (0 : ℚ) ≤
                (((edges.filter (fun e => openUrls.elem e.1)).map Prod.snd).sum : ℚ) /
                ((edges.map Prod.snd).sum : ℚ) :=
              div_nonneg (by positivity) (by positivity)
            rw [CLUSTER_BOOST_BASE]
            nlinarith
          · rw [if_neg htf, CLUSTER_BOOST_BASE]
            nlinarith

theorem mem_insertDesc {x a : Item × JSNum} {l : List (Item × JSNum)}
    (h : a ∈ insertDesc x l) : a = x ∨ a ∈ l := by
  induction l with
  | nil => simpa [insertDesc] using h
  | cons y ys ih =>
    simp only [insertDesc] at h
    by_cases hc : (!jsLe x.2 y.2) = true
    · rw [if_pos hc] at h
      rcases List.mem_cons.mp h with h1 | h1
      · exact Or.inl h1
      · exact Or.inr h1
    · rw [if_neg hc] at h
      rcases List.mem_cons.mp h with h1 | h1
      · exact Or.inr (h1 ▸ List.mem_cons_self y ys)
      · rcases ih h1 with h2 | h2
        · exact Or.inl h2
        · exact Or.inr (List.mem_cons_of_mem y h2)

theorem mem_sortScored {a : Item × JSNum} {l : List (Item × JSNum)}
    (h : a ∈ sortScored l) : a ∈ l := by
  induction l with
  | nil => simpa [sortScored] using h
  | cons y ys ih =>
    rcases mem_insertDesc (show a ∈ insertDesc y (sortScored ys) from h) with h1 | h1
    · exact h1 ▸ List.mem_cons_self y ys
    · exact List.mem_cons_of_mem y (ih h1)

/-- C10.  For every index and every empty or whitespace-only query, the
pipeline returns the empty result list (the engine's definitions are
total, so no fault can be raised): every surviving candidate carries the
numeric `-9999` no-query sentinel plus a boost of at most 50, which is
below the `-15` gate. -/
theorem empty_query_empty_results (g : Graph) (openUrls : List JStr) (text : JStr)
    (idx : List Item) (slots : Nat) (hq : jsTrim (jsToLower text) = []) :
    omniboxDocsResults g openUrls text idx slots = [] := by
  have hall : ∀ x ∈ uniqueScoredList g openUrls text idx,
      jsLe (JSNum.fin MATCH_QUALITY_THRESHOLD) x.2 = false := by
    intro x hx
    have hx1 := (mem_dedupGo hx).1
    have hx2 := mem_sortScored hx1
    simp only [scoredList, List.mem_filter, List.mem_map] at hx2
    obtain ⟨⟨item, hitem, hxeq⟩, hfin⟩ := hx2
    rw [← hxeq]
    simp only [scoreItem, hq]
    have hnoq : calculateWeightedTextScore [] item = FScore.noQuery := rfl
    rw [hnoq]
    simp only [FScore.toNum, jsAdd, jsLe, MATCH_QUALITY_THRESHOLD]
    have hb := calculateClusterBoost_le_50 g item.url openUrls
    simp only [decide_eq_false_iff_not, not_le]
    linarith
  cases hus : uniqueScoredList g openUrls text idx with
  | nil => simp [omniboxDocsResults, hus]
  | cons best rest =>
    have hbest := hall best (by rw [hus]; exact List.mem_cons_self _ _)
    simp [omniboxDocsResults, hus, hbest]

/-- C10 witness: a whitespace-only query against a one-item index yields
the empty result. -/
theorem empty_query_empty_results_witness :
    jsTrim (jsToLower (S "   ")) = [] ∧
    omniboxDocsResults [] [] (S "   ") [⟨S "t", S "u", S "", S "", S ""⟩] 6 = [] :=
  ⟨by decide,
    empty_query_empty_results [] [] (S "   ") [⟨S "t", S "u", S "", S "", S ""⟩] 6 (by decide)⟩
